import Mathlib

/-!
Verification of the plan-execution and compensation engine
(`executor/runner.py`, `pipeline_runner.py`, `planner/validate_schema.py`,
`mock_os/executor.py`, `mock_os/state.py`).

The Python code is shallowly embedded: dictionaries become association
lists (`List (String × JSON)`) with Python-dict semantics (first-match
lookup, in-place replacement on update, append on fresh insert), JSON
values become the inductive `JSON`, filesystem state becomes an explicit
record threaded through the step handlers, and the per-run log file
becomes a list of structured events mirroring the `log_line` call sites.
Serialization is abstracted: a file holds either raw text or a parsed
JSON document (`json.dumps`/`json.loads` round-tripping is not remodelled).
-/

/-- JSON values as manipulated by the Python code (floats are not needed by
any claim; numbers are integers). Objects are insertion-ordered association
lists, like Python dicts. -/
inductive JSON where
  | null
  | bool (b : Bool)
  | num (n : Int)
  | str (s : String)
  | arr (elems : List JSON)
  | obj (fields : List (String × JSON))

abbrev JObj := List (String × JSON)

/-- Python `d.get(k)` as an `Option` (first matching key, as in a dict). -/
def jget (fields : JObj) (k : String) : Option JSON :=
  match fields with
  | [] => none
  | (k', v) :: rest => if k' = k then some v else jget rest k

/-- Python `d.get(k)` returning `None` when absent (`JSON.null` models `None`). -/
def jgetN (fields : JObj) (k : String) : JSON :=
  (jget fields k).getD JSON.null

/-- Python `d[k] = v`: replace in place if the key exists, else append. -/
def jset (fields : JObj) (k : String) (v : JSON) : JObj :=
  match fields with
  | [] => [(k, v)]
  | (k', v') :: rest => if k' = k then (k, v) :: rest else (k', v') :: jset rest k v

/-- Python `d.pop(k, None)`: drop the key. -/
def jdel (fields : JObj) (k : String) : JObj :=
  fields.filter (fun kv => kv.1 ≠ k)

/-- Python `d.setdefault(k, v)`. -/
def jsetdefault (fields : JObj) (k : String) (v : JSON) : JObj :=
  match jget fields k with
  | some _ => fields
  | none => fields ++ [(k, v)]

/-- Python `out.update(d)`: entries folded in by `jset`, so duplicate keys
collapse to the last value. -/
def jupdate (base : JObj) (src : JObj) : JObj :=
  src.foldl (fun acc kv => jset acc kv.1 kv.2) base

/-- Python truthiness of a JSON value (`bool(x)`). -/
def jtruthy : JSON → Bool
  | .null => false
  | .bool b => b
  | .num n => n != 0
  | .str s => s ≠ ""
  | .arr l => !l.isEmpty
  | .obj l => !l.isEmpty

/-- Python `a or b` on values: `b` when `a` is falsy. -/
def jor (a b : JSON) : JSON :=
  if jtruthy a then a else b

theorem jget_sizeOf {fields : JObj} {k : String} {v : JSON}
    (h : jget fields k = some v) : sizeOf v < sizeOf fields := by
  induction fields with
  | nil => simp [jget] at h
  | cons kv rest ih =>
    obtain ⟨k', v'⟩ := kv
    simp only [jget] at h
    split at h
    · cases h
      simp only [List.cons.sizeOf_spec, Prod.mk.sizeOf_spec]
      omega
    · have := ih h
      simp only [List.cons.sizeOf_spec]
      omega

/-- `keys(a) ⊆ keys(b)`, the first half of Python dict equality. -/
def pyKeysSub : JObj → JObj → Bool
  | [], _ => true
  | (k, _) :: rest, other => (jget other k).isSome && pyKeysSub rest other

mutual

/-- Python `==` on JSON values: dict comparison ignores key order,
list comparison is positional. -/
def pyEq : JSON → JSON → Bool
  | .null, .null => true
  | .bool a, .bool b => a == b
  | .num a, .num b => a == b
  | .str a, .str b => a == b
  | .arr a, .arr b => pyEqList a b
  | .obj a, .obj b => pyKeysSub a b && pyKeysSub b a && pyEqVals a b
  | _, _ => false
termination_by a b => sizeOf a + sizeOf b
decreasing_by
  all_goals simp_wf
  all_goals omega

/-- Positional comparison of two lists by `pyEq`. -/
def pyEqList : List JSON → List JSON → Bool
  | [], [] => true
  | x :: xs, y :: ys => pyEq x y && pyEqList xs ys
  | _, _ => false
termination_by a b => sizeOf a + sizeOf b
decreasing_by
  all_goals simp_wf
  all_goals omega

/-- For every key of `a`, the value in `other` compares `pyEq`-equal. -/
def pyEqVals : JObj → JObj → Bool
  | [], _ => true
  | (k, v) :: rest, other =>
    (match h : jget other k with
     | some w => pyEq v w
     | none => false) && pyEqVals rest other
termination_by a b => sizeOf a + sizeOf b
decreasing_by
  all_goals simp_wf
  all_goals try omega
  all_goals have hjv := jget_sizeOf h
  all_goals omega

end

/-! ## Path model

POSIX paths as component lists. `pathParts` mirrors `pathlib` parsing
(splitting on `/`, dropping empty and `.` components at construction),
`normComps` mirrors the lexical part of `Path.resolve()` (`..` removes the
previous component, or is dropped at the root), and `renderAbs` mirrors
`as_posix()` of an absolute path. Symlink following is outside the model. -/

/-- Split a character list on `/`; the groups between slashes. -/
def splitSlashAux (cur : List Char) : List Char → List (List Char)
  | [] => [cur.reverse]
  | c :: rest =>
    if c = '/' then cur.reverse :: splitSlashAux [] rest
    else splitSlashAux (c :: cur) rest

/-- `PurePosixPath(s)` components after the anchor: empty and `.` components
are dropped at construction, `..` is kept (pathlib semantics). -/
def pathParts (s : String) : List String :=
  ((splitSlashAux [] s.data).map (fun g => String.mk g)).filter
    (fun c => c != "" && c != ".")

/-- `Path(s).is_absolute()` on POSIX: a leading slash. -/
def isAbsPath (s : String) : Bool :=
  match s.data with
  | '/' :: _ => true
  | _ => false

/-- Lexical normalization of an absolute path's components: drop empty and
`.`, let `..` pop the previous component (no-op at the root). -/
def normCompsAux (acc : List String) : List String → List String
  | [] => acc.reverse
  | c :: rest =>
    if c = "" ∨ c = "." then normCompsAux acc rest
    else if c = ".." then normCompsAux (acc.drop 1) rest
    else normCompsAux (c :: acc) rest

def normComps (comps : List String) : List String := normCompsAux [] comps

/-- Join character-list components with `/` separators. -/
def joinComps : List (List Char) → List Char
  | [] => []
  | [g] => g
  | g :: rest => g ++ '/' :: joinComps rest

/-- `as_posix()` of the absolute path with the given components. -/
def renderAbs (comps : List String) : String :=
  String.mk ('/' :: joinComps (comps.map String.data))

/-- `resolve_in_sandbox(raw_path, sandbox)` (`executor/runner.py:52`).
The sandbox root is given as the components of an absolute path. Returns the
resolved path's components, or the `ValueError` message. The Python original
is side-effect free apart from `Path.resolve`'s symlink reads, which this
lexical model omits. -/
def resolve_in_sandbox (raw_path : String) (sandbox : List String) :
    Except String (List String) :=
  if raw_path = "" then .error "path is required for this operation"
  else
    let joined := if isAbsPath raw_path then pathParts raw_path
                  else sandbox ++ pathParts raw_path
    let resolved := normComps joined
    let sandbox_root := normComps sandbox
    if sandbox_root.isPrefixOf resolved then .ok resolved
    else .error "refusing to operate outside sandbox"

/-! ## deep_merge (executor/runner.py:81) -/

/-- First-occurrence deduplication of a key list. -/
def dedupKeys (seen : List String) : List String → List String
  | [] => []
  | k :: rest =>
    if seen.contains k then dedupKeys seen rest
    else k :: dedupKeys (k :: seen) rest

/-- `set(base.keys()) | set(patch.keys())`, iterated in first-occurrence
order (Python's set iteration order is unspecified; dict equality does not
depend on it). -/
def unionKeys (base patch : JObj) : List String :=
  dedupKeys [] ((base.map Prod.fst) ++ (patch.map Prod.fst))

mutual

/-- `deep_merge(base, patch)`: keys whose values are dicts on both sides
merge recursively; otherwise the patch value wins whenever the key is
present in the patch, else the base value is kept. -/
def deep_merge (base patch : JObj) : JObj :=
  deepMergeAux base patch (unionKeys base patch)
termination_by (sizeOf base + sizeOf patch, (unionKeys base patch).length + 1)
decreasing_by
  simp_wf
  apply Prod.Lex.right
  omega

/-- One entry of `deep_merge` per key of the iterated key set. -/
def deepMergeAux (base patch : JObj) : List String → JObj
  | [] => []
  | k :: rest =>
    (k, match hb : jget base k, hp : jget patch k with
        | some (.obj bo), some (.obj po) => JSON.obj (deep_merge bo po)
        | _, some pv => pv
        | some bv, none => bv
        | none, none => JSON.null) :: deepMergeAux base patch rest
termination_by keys => (sizeOf base + sizeOf patch, keys.length)
decreasing_by
  · simp_wf
    have h1 := jget_sizeOf hb
    have h2 := jget_sizeOf hp
    simp only [JSON.obj.sizeOf_spec] at h1 h2
    apply Prod.Lex.left
    omega
  · simp_wf
    apply Prod.Lex.right
    omega

end

/-! ## Executor state model (executor/runner.py)

Files hold either raw text or a parsed JSON document (`json.dumps` /
`json.loads` are abstracted away; a claim never re-reads a JSON document
through the `read` handler). The per-run log file is modelled as a list of
structured events, one per `log_line` call site that the claims observe;
the timestamped text itself is abstracted. `subprocess.run` outcomes come
from an oracle in the context, and `shellCalls` counts invocations. -/

inductive FileContent where
  | text (s : String)
  | jdoc (j : JSON)

/-- Events mirroring the observable effects of the runner. -/
inductive Ev where
  | stepStart (label op : String) (attempt : Nat)
  | retryEv (label : String) (attempt : Nat)
  | stepDone (label op : String) (attempt : Nat) (rc : Int) (success : Bool)
  | backupEv (path bak : List String)
  | compStart (forLabel : String)
  | compDone (forLabel : String)
  | planError

structure World where
  files : List (List String × FileContent)
  dirs : List (List String)
  log : List Ev
  shellCalls : Nat

structure Ctx where
  sandbox : List String
  allowExec : Bool
  dryRun : Bool
  which : String → Bool
  shellRC : Nat → Int

/-- `StepResult` (executor/runner.py:18). -/
structure StepResult where
  success : Bool
  rc : Int
  stdout : String := ""
  stderr : String := ""
  attempt : Nat := 1
  label : String := ""
  op : String := ""

def fsGet (files : List (List String × FileContent)) (p : List String) :
    Option FileContent :=
  match files with
  | [] => none
  | (q, c) :: rest => if q = p then some c else fsGet rest p

def fsSet (files : List (List String × FileContent)) (p : List String)
    (c : FileContent) : List (List String × FileContent) :=
  match files with
  | [] => [(p, c)]
  | (q, c') :: rest => if q = p then (p, c) :: rest else (q, c') :: fsSet rest p c

def logEv (e : Ev) (w : World) : World := { w with log := w.log ++ [e] }

/-- All prefixes of a directory path, itself included (what
`mkdir(parents=True, exist_ok=True)` guarantees to exist). -/
def dirPrefixes (d : List String) : List (List String) :=
  (List.range (d.length + 1)).map (fun i => d.take i)

def addDirs (d : List String) (w : World) : World :=
  { w with dirs := w.dirs ++ (dirPrefixes d).filter (fun q => !w.dirs.contains q) }

/-- `str(x)` of a value expected to be a string; a non-string here would
make the Python original raise or stringify its repr, neither of which a
claim exercises. -/
def pyStrOf : JSON → String
  | .str s => s
  | _ => ""

/-- `step.get(k, default)` for string-valued arguments. -/
def jgetStrD (fields : JObj) (k : String) (d : String) : String :=
  match jget fields k with
  | some (.str s) => s
  | _ => d

/-- `path.with_name(path.name + ".bak")`. -/
def bakPath (p : List String) : List String :=
  p.dropLast ++ [(p.getLastD "") ++ ".bak"]

/-- `create_backup(path)` (executor/runner.py:72): copy the current content
to the `.bak` sibling when the target exists. -/
def create_backup (p : List String) (w : World) :
    Option (List String) × World :=
  match fsGet w.files p with
  | none => (none, w)
  | some c =>
    let bak := bakPath p
    let w := addDirs bak.dropLast w
    (some bak, { w with files := fsSet w.files bak c })

/-- `perform_read` (executor/runner.py:104). Reading a file whose content is
a JSON document would return its serialized text, which the model abstracts
as the document itself is never re-read by a claim. -/
def fileText : FileContent → String
  | .text s => s
  | .jdoc _ => ""

def perform_read (step : JObj) (ctx : Ctx) (label : String) (attempt : Nat)
    (w : World) : Except String (StepResult × World) := do
  let path ← resolve_in_sandbox (jgetStrD step "path" "") ctx.sandbox
  if ctx.dryRun then
    pure (⟨true, 0, "DRY-RUN read " ++ renderAbs path, "", attempt, label, "read"⟩, w)
  else
    match fsGet w.files path with
    | some c => pure (⟨true, 0, fileText c, "", attempt, label, "read"⟩, w)
    | none =>
      pure (⟨false, 4, "", "no such file: " ++ renderAbs path, attempt, label, "read"⟩, w)

/-- `perform_write` (executor/runner.py:116). -/
def perform_write (step : JObj) (ctx : Ctx) (label : String) (attempt : Nat)
    (w : World) : Except String (StepResult × World) := do
  let path ← resolve_in_sandbox (jgetStrD step "path" "") ctx.sandbox
  let content := jgetStrD step "content" ""
  if ctx.dryRun then
    pure (⟨true, 0, "DRY-RUN write to " ++ renderAbs path, "", attempt, label, "write"⟩, w)
  else
    let w := addDirs path.dropLast w
    let (bak, w) := create_backup path w
    let w := match bak with
             | some b => logEv (.backupEv path b) w
             | none => w
    let w := { w with files := fsSet w.files path (.text content) }
    pure (⟨true, 0, "wrote " ++ toString content.length ++ " bytes to " ++ renderAbs path,
           "", attempt, label, "write"⟩, w)

/-- `perform_patch_json` (executor/runner.py:133). The optional
caller-supplied `schema` knob (lines 145-151) is not modelled: the claims
quantify over steps without one, for which `load_schema` returns `None` and
validation is skipped. A target whose content is raw text stands for a file
`json.loads` rejects. A parsed document that is not an object would make
`deep_merge` raise an uncaught `AttributeError` in Python (line 143 sits
outside the `try`), modelled as a propagated exception. -/
def perform_patch_json (step : JObj) (ctx : Ctx) (label : String) (attempt : Nat)
    (w : World) : Except String (StepResult × World) := do
  let path ← resolve_in_sandbox (jgetStrD step "path" "") ctx.sandbox
  let patch_spec := jor (jor (jgetN step "patch") (jgetN step "updates")) (.obj [])
  match patch_spec with
  | .obj pfields =>
    match fsGet w.files path with
    | some (.jdoc d) =>
      match d with
      | .obj dfields =>
        let updated := JSON.obj (deep_merge dfields pfields)
        if ctx.dryRun then
          pure (⟨true, 0, "DRY-RUN patch_json " ++ renderAbs path, "", attempt, label,
                 "patch_json"⟩, w)
        else
          let (bak, w) := create_backup path w
          let w := match bak with
                   | some b => logEv (.backupEv path b) w
                   | none => w
          let w := { w with files := fsSet w.files path (.jdoc updated) }
          pure (⟨true, 0, "patched json at " ++ renderAbs path, "", attempt, label,
                 "patch_json"⟩, w)
      | _ => .error "deep_merge requires a dict document"
    | _ =>
      pure (⟨false, 4, "", "failed to read json", attempt, label, "patch_json"⟩, w)
  | _ =>
    pure (⟨false, 4, "", "patch_json requires 'patch' dict", attempt, label, "patch_json"⟩, w)

/-- `choose_shell(preferred)` (executor/runner.py:164), with `shutil.which`
supplied by the context. -/
def choose_shell (preferred : String) (which : String → Bool) :
    Except String (String × List String) :=
  let shell := preferred.toLower
  let candidates : List (String × List String) :=
    if shell = "pwsh" ∨ shell = "powershell" ∨ shell = "ps" then
      [("pwsh", ["pwsh", "-NoLogo", "-NonInteractive"]),
       ("powershell", ["powershell", "-NoLogo", "-NonInteractive"])]
    else if shell = "bash" ∨ shell = "sh" then
      [("bash", ["bash"]), ("sh", ["sh"])]
    else
      [("pwsh", ["pwsh", "-NoLogo", "-NonInteractive"]),
       ("powershell", ["powershell", "-NoLogo", "-NonInteractive"]),
       ("bash", ["bash"]), ("sh", ["sh"])]
  match candidates.find? (fun c => which (c.2.headD "")) with
  | some (name, command) => .ok (name, command)
  | none => .error "no shell available for run_script"

/-- `perform_run_script` (executor/runner.py:185). The subprocess outcome is
the context oracle's return code for the current invocation index; its
captured stdout/stderr are abstracted as empty. The Python locals
(`script_body`, `script_path_raw`, `shell_pref`, `resolved_path`) are
inlined. -/
def perform_run_script (step : JObj) (ctx : Ctx) (label : String) (attempt : Nat)
    (w : World) : Except String (StepResult × World) :=
  if !ctx.allowExec then
    .ok (⟨false, 2, "", "run_script blocked: --allow-exec not set", attempt, label,
          "run_script"⟩, w)
  else if !jtruthy (jor (jgetN step "script") (jgetN step "command")) &&
      !jtruthy (jgetN step "path") then
    .ok (⟨false, 4, "", "run_script requires 'script' or 'path'", attempt, label,
          "run_script"⟩, w)
  else
    match (if jtruthy (jgetN step "path") then
             match resolve_in_sandbox (pyStrOf (jgetN step "path")) ctx.sandbox with
             | .ok p => .ok (some p)
             | .error e => .error e
           else .ok none : Except String (Option (List String))) with
    | .error e =>
      .ok (⟨false, 4, "", e, attempt, label, "run_script"⟩, w)
    | .ok rp =>
      match choose_shell
          (pyStrOf (jor (jor (jgetN step "shell") (jgetN step "interpreter")) (.str "")))
          ctx.which with
      | .error e => .ok (⟨false, 4, "", e, attempt, label, "run_script"⟩, w)
      | .ok (shell_name, _) =>
        if ctx.dryRun then
          .ok (⟨true, 0,
                "DRY-RUN run_script " ++
                  (match rp with
                   | some p => renderAbs p
                   | none => "<inline>") ++ " using " ++ shell_name,
                "", attempt, label, "run_script"⟩, w)
        else
          .ok (⟨ctx.shellRC w.shellCalls == 0, ctx.shellRC w.shellCalls, "", "",
                attempt, label, "run_script"⟩,
               { w with shellCalls := w.shellCalls + 1 })

/-- The `STEP_HANDLERS` dispatch table (executor/runner.py:222). -/
def handlerFor (op : JSON) :
    Option (JObj → Ctx → String → Nat → World → Except String (StepResult × World)) :=
  match op with
  | .str "read" => some perform_read
  | .str "write" => some perform_write
  | .str "patch_json" => some perform_patch_json
  | .str "run_script" => some perform_run_script
  | _ => none

def opOf (step : JObj) : JSON :=
  jor (jgetN step "op") (jgetN step "action")

/-- `log_step_result` (executor/runner.py:230); the STDOUT/STDERR snippet
lines and the dry-run console echo are not separately modelled. -/
def log_step_result (r : StepResult) (w : World) : World :=
  logEv (.stepDone r.label r.op r.attempt r.rc r.success) w

/-- `execute_step` (executor/runner.py:246). -/
def execute_step (step : JObj) (ctx : Ctx) (label : String) (attempt : Nat)
    (w : World) : Except String (StepResult × World) :=
  match handlerFor (opOf step) with
  | none =>
    let r : StepResult :=
      ⟨false, 4, "", "unsupported op: " ++ pyStrOf (opOf step), attempt, label,
       pyStrOf (opOf step)⟩
    .ok (r, log_step_result r w)
  | some handler => do
    let w := logEv (.stepStart label (pyStrOf (opOf step)) attempt) w
    let (r, w) ← handler step ctx label attempt w
    pure (r, log_step_result r w)

/-- `execute_with_retry` (executor/runner.py:259): one invocation, and one
more unless the first succeeded or returned code 2. -/
def execute_with_retry (step : JObj) (ctx : Ctx) (label : String) (w : World) :
    Except String (StepResult × World) := do
  let (result, w) ← execute_step step ctx label 1 w
  if result.success || result.rc == 2 then pure (result, w)
  else
    let w := logEv (.retryEv label 2) w
    execute_step step ctx label 2 w

/-- `compensation_steps(step, plan)` (executor/runner.py:269). -/
def compensation_steps (step plan : JObj) : List JSON :=
  match jget step "compensate" with
  | some (.arr l) => l
  | _ =>
    match jget plan "compensate" with
    | some (.arr l) => l
    | _ => []

/-- `comp.get("label") or comp.get("name") or default`. -/
def stepLabel (step : JObj) (default : String) : String :=
  pyStrOf (jor (jor (jgetN step "label") (jgetN step "name")) (.str default))

/-- The loop of `run_compensation` (executor/runner.py:277). -/
def runCompAux (ctx : Ctx) : List JSON → Nat → Bool → World →
    Except String (Bool × World)
  | [], _, allOk, w => .ok (allOk, w)
  | s :: rest, idx, allOk, w =>
    match s with
    | .obj comp => do
      let label := stepLabel comp ("compensate-" ++ toString idx)
      let (r, w) ← execute_with_retry comp ctx label w
      runCompAux ctx rest (idx + 1) (allOk && r.success) w
    | _ => .error "compensation step is not a dict"

/-- `run_compensation(steps, ctx)` (executor/runner.py:277): every step runs
through the retry controller; the result records whether all succeeded. -/
def run_compensation (steps : List JSON) (ctx : Ctx) (w : World) :
    Except String (Bool × World) :=
  runCompAux ctx steps 1 true w

/-- The loop of `run_plan` (executor/runner.py:287). -/
def runPlanAux (plan : JObj) (ctx : Ctx) : List JSON → Nat → World →
    Except String (Int × World)
  | [], _, w => .ok (0, w)
  | s :: rest, idx, w =>
    match s with
    | .obj step => do
      let label := stepLabel step ("step-" ++ toString idx)
      let (r, w) ← execute_with_retry step ctx label w
      if r.success then runPlanAux plan ctx rest (idx + 1) w
      else
        let rc1 : Int := if r.rc == 2 then 2 else 4
        let comps := compensation_steps step plan
        if comps.isEmpty then .ok (rc1, w)
        else do
          let w := logEv (.compStart label) w
          let (allOk, w) ← run_compensation comps ctx w
          let rc2 : Int := if allOk && rc1 != 2 then 3 else rc1
          let w := logEv (.compDone label) w
          .ok (rc2, w)
    | _ => .error "step is not a dict"

/-- `run_plan(plan, ctx)` (executor/runner.py:287): steps in declared order,
first failure halts; on failure with declared compensation the compensation
runs and a fully successful one turns exit code 4 into 3 (never 2). -/
def run_plan (plan : JObj) (ctx : Ctx) (w : World) : Except String (Int × World) :=
  match jget plan "steps" with
  | some (.arr steps) => runPlanAux plan ctx steps 1 w
  | _ => .ok (4, logEv .planError w)

/-! ## Simulated-State Engine (mock_os/state.py, mock_os/executor.py)

The live document and the checkpoint `HISTORY` stack become an explicit
`MWorld` (most recent checkpoint first). `copy.deepcopy` is implicit in pure
values. `log_event` calls (telemetry, with swallowed exceptions) have no
observable effect on state or result and are not modelled. Only the fields
of `planner.schema.Step` that `run` reads are carried. -/

structure MStep where
  step_label : String
  api_call : String
  args : JObj
  expected_state : JObj

structure MWorld where
  state : JObj
  history : List JObj

/-- Number of entries of `target_state["windows"]`. -/
def winCount (t : JObj) : Nat :=
  match jget t "windows" with
  | some (.arr l) => l.length
  | _ => 0

/-- `_apply_step(target_state, step)` (mock_os/executor.py:9). A non-list
`windows`/`logs` or non-dict `settings` value would raise in Python; the
model leaves the document unchanged there, and the theorems' well-formedness
hypotheses exclude those documents. -/
def apply_step (target : JObj) (step : MStep) : JObj :=
  let t := jsetdefault target "windows" (.arr [])
  let t := jsetdefault t "settings" (.obj [])
  let t := jsetdefault t "logs" (.arr [])
  let t := jsetdefault t "clipboard" (.str "")
  let args := step.args
  if step.api_call = "append_log" then
    match jget t "logs" with
    | some (.arr l) => jset t "logs" (.arr (l ++ [(jget args "message").getD (.str "")]))
    | _ => t
  else if step.api_call = "open_window" then
    let window := jor (jgetN args "window")
      (.obj [("id", .str ("win-" ++ toString (winCount t + 1))),
             ("title", (jget args "title").getD (.str "Window")),
             ("active", .bool true)])
    match jget t "windows" with
    | some (.arr l) => jset t "windows" (.arr (l ++ [window]))
    | _ => t
  else if step.api_call = "write_clipboard" then
    jset t "clipboard" ((jget args "text").getD (.str ""))
  else if step.api_call = "update_setting" then
    let key := match jget args "key" with
               | some (.str s) => s
               | _ => "unknown"
    match jget t "settings" with
    | some (.obj m) => jset t "settings" (.obj (jset m key ((jget args "value").getD .null)))
    | _ => t
  else t

/-- `validate(expected_state)` (mock_os/state.py:51) against a given
document: shallow comparison of the expectation's top-level keys only;
an empty expectation always passes. -/
def state_validate (expected : JObj) (current : JObj) : Bool :=
  if expected.isEmpty then true
  else expected.all (fun kv => pyEq (jgetN current kv.1) kv.2)

/-- `_diff_states(original, updated)` (mock_os/executor.py:33). -/
def diff_states (o u : JObj) : JObj :=
  (unionKeys o u).foldr
    (fun k acc =>
      if pyEq (jgetN o k) (jgetN u k) then acc
      else (k, JSON.obj [("from", jgetN o k), ("to", jgetN u k)]) :: acc)
    []

/-- `restore_last()` (mock_os/state.py:22): pop the most recent checkpoint
into the live document; a no-op when the history is empty. -/
def restore_last (mw : MWorld) : MWorld :=
  match mw.history with
  | [] => mw
  | prev :: rest => ⟨prev, rest⟩

/-- The dict returned by `run` (mock_os/executor.py), success and mismatch
shapes merged into one record; fields absent from a shape are `none`/empty. -/
structure RunOut where
  applied : Bool
  reason : Option String := none
  expected : Option JObj := none
  current : Option JObj := none
  state : Option JObj := none
  applied_steps : List String := []
  diff : JObj := []

/-- `_state_mismatch_response(expected_state)` (mock_os/executor.py:42). -/
def state_mismatch_response (expected : JObj) (mw : MWorld) : RunOut × MWorld :=
  (⟨false, some "STATE_MISMATCH", some expected, some mw.state, none, [], []⟩,
   restore_last mw)

/-- The loop of `run(plan)` (mock_os/executor.py:71): look-back check of the
previous step's expectation, apply, and a final check after the loop. -/
def mosRunAux (before : JObj) : List MStep → Option JObj → List String → MWorld →
    RunOut × MWorld
  | [], prev, applied, mw =>
    if (match prev with | some e => !state_validate e mw.state | none => false) then
      state_mismatch_response (prev.getD []) mw
    else
      (⟨true, none, none, none, some mw.state, applied, diff_states before mw.state⟩, mw)
  | st :: rest, prev, applied, mw =>
    if (match prev with | some e => !state_validate e mw.state | none => false) then
      state_mismatch_response (prev.getD []) mw
    else
      mosRunAux before rest (some st.expected_state) (applied ++ [st.step_label])
        { mw with state := apply_step mw.state st }

/-- `run(plan)` (mock_os/executor.py:71): push a checkpoint, run the loop.
`plan.steps` is the only Plan field `run` reads. -/
def mos_run (steps : List MStep) (mw : MWorld) : RunOut × MWorld :=
  let before := mw.state
  let mw := { mw with history := mw.state :: mw.history }
  mosRunAux before steps none [] mw

/-- Sequential application of steps (specification-side helper). -/
def applyAll (steps : List MStep) (s : JObj) : JObj :=
  steps.foldl apply_step s

/-- Specification-side scan, independent of `run`'s look-back phrasing: the
first step whose declared expectation fails shallow verification against the
document right after that step applies; returns its 0-based index and
expectation. -/
def firstMismatch (s : JObj) : List MStep → Option (Nat × JObj)
  | [] => none
  | st :: rest =>
    let s' := apply_step s st
    if state_validate st.expected_state s' then
      (firstMismatch s' rest).map (fun p => (p.1 + 1, p.2))
    else some (0, st.expected_state)

/-- Documents on which `_apply_step` cannot raise: the three structured
top-level keys, when present, have the expected container type. -/
def mosWFState (s : JObj) : Bool :=
  (match jget s "windows" with | some (.arr _) => true | none => true | _ => false) &&
  (match jget s "logs" with | some (.arr _) => true | none => true | _ => false) &&
  (match jget s "settings" with | some (.obj _) => true | none => true | _ => false)

/-- Steps on which `_apply_step` cannot raise: an `update_setting` key
argument, when present, is a string (Python would accept any hashable, which
the string-keyed model cannot host). -/
def mosWFStep (st : MStep) : Bool :=
  if st.api_call = "update_setting" then
    match jget st.args "key" with
    | some (.str _) => true
    | none => true
    | _ => false
  else true

/-! ## Schema Validator (planner/validate_schema.py)

`PLAN_SCHEMA` (lines 11-66) translated clause by clause; `validate_plan`
returns whether the Draft-7 validation succeeds (the Python original raises
the first violation). The disjoint `oneOf` arms of `retry_policy` become a
disjunction. -/

def isStrJ : JSON → Bool
  | .str _ => true
  | _ => false

def isObjJ : JSON → Bool
  | .obj _ => true
  | _ => false

/-- `#/definitions/retry_policy`. -/
def retryPolicyValid (v : JSON) : Bool :=
  match v with
  | .num n => decide (0 ≤ n)
  | .obj fields =>
    (jget fields "limit").isSome &&
    fields.all (fun kv => kv.1 = "limit" || kv.1 = "backoff" || kv.1 = "predicate") &&
    (match jget fields "limit" with | some (.num n) => decide (0 ≤ n) | _ => false) &&
    (match jget fields "backoff" with | some w => isStrJ w | none => true) &&
    (match jget fields "predicate" with | some w => isStrJ w | none => true)
  | _ => false

def stepKeys : List String :=
  ["op", "args", "expect", "id", "description", "retry", "on_fail", "safe_write",
   "produces", "requires"]

def strListValid (v : JSON) : Bool :=
  match v with
  | .arr l => l.all isStrJ
  | _ => false

mutual

/-- `#/definitions/step`. -/
def stepValid (v : JSON) : Bool :=
  match v with
  | .obj fields =>
    (jget fields "op").isSome && (jget fields "args").isSome &&
    (jget fields "expect").isSome &&
    fields.all (fun kv => stepKeys.contains kv.1) &&
    (match jget fields "op" with
     | some (.str s) => s = "read" || s = "write" || s = "patch_json" || s = "run_script"
     | _ => false) &&
    (match jget fields "args" with | some w => isObjJ w | none => true) &&
    (match jget fields "expect" with | some w => isObjJ w | none => true) &&
    (match jget fields "id" with | some w => isStrJ w | none => true) &&
    (match jget fields "description" with | some w => isStrJ w | none => true) &&
    (match jget fields "retry" with | some w => retryPolicyValid w | none => true) &&
    (match hf : jget fields "on_fail" with
     | some (.arr l) => stepListValid l
     | some _ => false
     | none => true) &&
    (match jget fields "safe_write" with
     | some (.bool _) => true
     | some _ => false
     | none => true) &&
    (match jget fields "produces" with | some w => strListValid w | none => true) &&
    (match jget fields "requires" with | some w => strListValid w | none => true)
  | _ => false
termination_by sizeOf v
decreasing_by
  simp_wf
  have := jget_sizeOf hf
  simp only [JSON.arr.sizeOf_spec] at this
  omega

def stepListValid : List JSON → Bool
  | [] => true
  | s :: rest => stepValid s && stepListValid rest
termination_by l => sizeOf l
decreasing_by
  all_goals simp_wf
  all_goals omega

end

/-- `validate_plan(plan)` (planner/validate_schema.py:82): whether the plan
conforms to `PLAN_SCHEMA`. -/
def validate_plan (plan : JSON) : Bool :=
  match plan with
  | .obj fields =>
    (jget fields "plan_id").isSome && (jget fields "steps").isSome &&
    (jget fields "metadata").isSome &&
    fields.all (fun kv => kv.1 = "plan_id" || kv.1 = "steps" || kv.1 = "metadata") &&
    (match jget fields "plan_id" with
     | some (.str s) => s ≠ ""
     | _ => false) &&
    (match jget fields "steps" with
     | some (.arr l) => !l.isEmpty && stepListValid l
     | _ => false) &&
    (match jget fields "metadata" with | some w => isObjJ w | none => true)
  | _ => false

/-! ## Plan Normalizer (pipeline_runner.py:92-168)

`uuid.uuid4()` is modelled as an explicit supply of fresh strings (one for
`plan_id`, one per step index); the functions never compare or reuse them,
so any supply works. `Path` handling reuses the path model above. -/

/-- `op_map.get(s, s)` for string operation names (pipeline_runner.py:120). -/
def op_map (s : String) : String :=
  if s = "patch" then "patch_json"
  else if s = "patch_json" then "patch_json"
  else if s = "write" then "write"
  else if s = "run" then "run_script"
  else if s = "run_script" then "run_script"
  else if s = "read" then "read"
  else s

/-- `op_map.get(op_raw, op_raw)`: a non-string key falls through to the
default. -/
def mapOpVal : JSON → JSON
  | .str s => .str (op_map s)
  | v => v

/-- `normalize_target_path(raw_target, sandbox_root)` (pipeline_runner.py:92),
as path components: absolute paths are resolved as-is; relative paths drop a
leading `sandbox` component and are anchored at the sandbox root. -/
def normalize_target_path (raw : String) (sandbox_root : List String) : List String :=
  if isAbsPath raw then normComps (pathParts raw)
  else
    let parts := pathParts raw
    let parts := match parts with
                 | "sandbox" :: rest => rest
                 | _ => parts
    normComps (sandbox_root ++ parts)

/-- `if key in src and key not in dst: dst[key] = src[key]`. -/
def copyKey (src dst : JObj) (k : String) : JObj :=
  match jget src k, jget dst k with
  | some v, none => jset dst k v
  | _, _ => dst

/-- The argument dict `adapt_step` starts from: a copy of `step["args"]`
with the step-level `target`/`path`/`file` keys promoted when absent. -/
def adaptArgs0 (step : JObj) : JObj :=
  let args : JObj := match jget step "args" with
                     | some (.obj a) => jupdate [] a
                     | _ => []
  let args := copyKey step args "target"
  let args := copyKey step args "path"
  copyKey step args "file"

/-- The `args.get("target") or args.get("path") or args.get("file")` value
that `adapt_step` inspects. -/
def targetChain (args : JObj) : JSON :=
  jor (jor (jgetN args "target") (jgetN args "path")) (jgetN args "file")

/-- `adapt_step(step, sandbox_root, inject_defaults)` (pipeline_runner.py:119)
with the step's synthetic-id draw made explicit. A truthy non-string
target value would be stringified by Python before path-normalization; the
model leaves the arguments unchanged there and the idempotence theorem's
hypotheses exclude that case. -/
def adapt_step (step : JObj) (sandbox_root : List String) (inject_defaults : Bool)
    (fresh : String) : JObj :=
  let op := mapOpVal (jor (jgetN step "op") (jgetN step "action"))
  let args := adaptArgs0 step
  let target_raw := targetChain args
  let args :=
    if jtruthy target_raw then
      match target_raw with
      | .str s =>
        let normalized := normalize_target_path s sandbox_root
        let args := jset args "path" (.str (renderAbs normalized))
        let args := jdel args "target"
        jdel args "file"
      | _ => args
    else args
  let args := copyKey step args "patch"
  let args := copyKey step args "content"
  let expect : Option JSON :=
    match jget step "expect" with
    | some .null => if inject_defaults then some (.obj [("status", .str "ok")]) else none
    | some v => some v
    | none => if inject_defaults then some (.obj [("status", .str "ok")]) else none
  let idv := jor (jor (jor (jgetN step "id") (jgetN step "label")) (jgetN step "name"))
    (.str ("step-" ++ fresh))
  let out : JObj := [("id", idv), ("op", op), ("args", .obj args)]
  let out := match expect with
             | some e => out ++ [("expect", e)]
             | none => out
  if jtruthy (jgetN step "description") then out ++ [("description", jgetN step "description")]
  else out

mutual

/-- `flatten_steps(steps)` (pipeline_runner.py:103). A falsy or non-list
argument yields no steps (iterating a truthy non-list, which Python would
attempt element-wise, never produces dict elements for the shapes the
theorems quantify over). -/
def flatten_steps : JSON → List JObj
  | .arr steps => flattenList steps
  | _ => []
termination_by v => sizeOf v
decreasing_by
  simp_wf
  omega

def flattenList : List JSON → List JObj
  | [] => []
  | s :: rest =>
    (match s with
     | .obj fields =>
       let copy := jdel fields "steps"
       (if copy.isEmpty then [] else [copy]) ++
       (match hn : jget fields "steps" with
        | some (.arr l) => flattenList l
        | _ => [])
     | _ => []) ++ flattenList rest
termination_by l => sizeOf l
decreasing_by
  all_goals simp_wf
  all_goals try omega
  all_goals have hjv := jget_sizeOf hn
  all_goals simp only [JSON.arr.sizeOf_spec] at hjv
  all_goals omega

end

/-- `normalize_plan(plan, sandbox_root, inject_defaults)`
(pipeline_runner.py:161), with the synthetic-id supply explicit. -/
def normalize_plan (plan : JObj) (sandbox_root : List String) (inject_defaults : Bool)
    (freshPlan : String) (freshStep : Nat → String) : JObj :=
  let steps := flatten_steps (jgetN plan "steps")
  let normalized_steps :=
    steps.enum.map (fun p => JSON.obj (adapt_step p.2 sandbox_root inject_defaults (freshStep p.1)))
  let metadata := match jget plan "metadata" with
                  | some (.obj m) => JSON.obj m
                  | _ => JSON.obj []
  [("plan_id", jor (jgetN plan "plan_id") (.str ("plan-" ++ freshPlan))),
   ("metadata", metadata),
   ("steps", .arr normalized_steps)]

/-! ## Specification-side helpers

Pure observers used to state the claims: they re-express the executor's
control flow as scans whose relation to `run_plan`/`run_compensation` is
proved, and count the handler invocations recorded in the log. -/

/-- Number of `STEP_START` lines in a log: one per handler invocation. -/
def countStarts (log : List Ev) : Nat :=
  (log.filter (fun e => match e with | .stepStart _ _ _ => true | _ => false)).length

/-- Scan of a primary step list: runs each step through the retry
controller and stops at the first failure, returning its 1-based index, the
step and its result; no compensation, no classification. -/
def planScan (ctx : Ctx) : List JSON → Nat → World →
    Except String (Option (Nat × JObj × StepResult) × World)
  | [], _, w => .ok (none, w)
  | s :: rest, idx, w =>
    match s with
    | .obj step => do
      let (r, w) ← execute_with_retry step ctx (stepLabel step ("step-" ++ toString idx)) w
      if r.success then planScan ctx rest (idx + 1) w
      else .ok (some (idx, step, r), w)
    | _ => .error "step is not a dict"

/-- Scan of a compensation list: every step runs through the retry
controller regardless of earlier failures; all results are collected. -/
def compScan (ctx : Ctx) : List JSON → Nat → World →
    Except String (List StepResult × World)
  | [], _, w => .ok ([], w)
  | s :: rest, idx, w =>
    match s with
    | .obj comp => do
      let (r, w) ← execute_with_retry comp ctx (stepLabel comp ("compensate-" ++ toString idx)) w
      let (rs, w) ← compScan ctx rest (idx + 1) w
      .ok (r :: rs, w)
    | _ => .error "compensation step is not a dict"

/-- A path component that renders and re-parses unchanged: nonempty, not
`.`, and slash-free. -/
def goodComp (c : String) : Bool :=
  c != "" && c != "." && !(c.data.contains '/')

/-- Sandbox roots whose components survive `as_posix` rendering. -/
def sandboxOK (sandbox : List String) : Bool :=
  sandbox.all (fun c => !(c.data.contains '/'))

/-- Flattened steps on which `adapt_step` matches the Python original and is
idempotent: the inspected target value, when truthy, is a string, and the
`op`/`action` chain is either truthy or wholly absent (a falsy-but-present
operation name makes even the Python original non-idempotent). -/
def stepOK (step : JObj) : Bool :=
  (let t := targetChain (adaptArgs0 step)
   !jtruthy t || isStrJ t) &&
  (let u := jor (jgetN step "op") (jgetN step "action")
   jtruthy u || (match u with | .null => true | _ => false))

/-- The `expect` entry `adapt_step` appends, as a function of the optional
expectation value. -/
def expectPart : Option JSON → JObj
  | some e => [("expect", e)]
  | none => []

/-- The `description` entry `adapt_step` appends. -/
def descPart : Option JSON → JObj
  | some d => [("description", d)]
  | none => []

/-! # Lemmas and claim theorems -/

/-! ### Association-list dictionary lemmas -/

theorem jget_jset_self (l : JObj) (k : String) (v : JSON) :
    jget (jset l k v) k = some v := by
  induction l with
  | nil => simp [jset, jget]
  | cons kv rest ih =>
    obtain ⟨k', v'⟩ := kv
    simp only [jset]
    split
    · simp [jget]
    · rename_i hne
      simpa [jget, hne] using ih

theorem jget_jset_ne (l : JObj) (k q : String) (v : JSON) (h : q ≠ k) :
    jget (jset l k v) q = jget l q := by
  have h' : ¬ k = q := fun e => h e.symm
  induction l with
  | nil => simp [jset, jget, h']
  | cons kv rest ih =>
    obtain ⟨k', v'⟩ := kv
    simp only [jset]
    split
    · rename_i hk
      subst hk
      simp [jget, h']
    · by_cases hq : k' = q <;> simp [jget, hq, ih]

theorem jset_of_jget (l : JObj) (k : String) (v : JSON) (h : jget l k = some v) :
    jset l k v = l := by
  induction l with
  | nil => simp [jget] at h
  | cons kv rest ih =>
    obtain ⟨k', v'⟩ := kv
    simp only [jget] at h
    simp only [jset]
    split
    · rename_i hk
      rw [if_pos hk] at h
      cases h
      rw [hk]
    · rename_i hk
      rw [if_neg hk] at h
      rw [ih h]

theorem jget_eq_none_iff (l : JObj) (k : String) :
    jget l k = none ↔ k ∉ l.map Prod.fst := by
  induction l with
  | nil => simp [jget]
  | cons kv rest ih =>
    obtain ⟨k', v'⟩ := kv
    by_cases hk : k' = k
    · subst hk
      simp [jget]
    · have hk' : ¬ k = k' := fun e => hk e.symm
      simp [jget, hk, hk', ih]

theorem jdel_of_jget_none (l : JObj) (k : String) (h : jget l k = none) :
    jdel l k = l := by
  induction l with
  | nil => rfl
  | cons kv rest ih =>
    obtain ⟨k', v'⟩ := kv
    simp only [jget] at h
    split at h
    · cases h
    · rename_i hk
      simp only [jdel, List.filter] at *
      rw [ih h]
      simp [hk]

theorem jget_jdel_ne (l : JObj) (k q : String) (h : q ≠ k) :
    jget (jdel l k) q = jget l q := by
  induction l with
  | nil => rfl
  | cons kv rest ih =>
    obtain ⟨k', v'⟩ := kv
    by_cases hk : k' = k
    · subst hk
      have hq : ¬ k' = q := fun e => h e.symm
      have hdel : jdel ((k', v') :: rest) k' = jdel rest k' := by
        simp [jdel, List.filter]
      rw [hdel, ih]
      simp [jget, hq]
    · have hdel : jdel ((k', v') :: rest) k = (k', v') :: jdel rest k := by
        simp [jdel, List.filter, hk]
      rw [hdel]
      by_cases hq : k' = q
      · simp [jget, hq]
      · simp [jget, hq, ih]

theorem jget_append_none (a b : JObj) (k : String) (h : jget a k = none) :
    jget (a ++ b) k = jget b k := by
  induction a with
  | nil => rfl
  | cons kv rest ih =>
    obtain ⟨k', v'⟩ := kv
    simp only [jget] at h
    split at h
    · cases h
    · rename_i hk
      simpa [jget, hk] using ih h

theorem jset_fresh (l : JObj) (k : String) (v : JSON) (h : jget l k = none) :
    jset l k v = l ++ [(k, v)] := by
  induction l with
  | nil => rfl
  | cons kv rest ih =>
    obtain ⟨k', v'⟩ := kv
    simp only [jget] at h
    split at h
    · cases h
    · rename_i hk
      simp [jset, hk, ih h]

theorem jset_keys_mem (l : JObj) (k q : String) (v : JSON) :
    q ∈ (jset l k v).map Prod.fst ↔ q ∈ l.map Prod.fst ∨ q = k := by
  induction l with
  | nil => simp [jset]
  | cons kv rest ih =>
    obtain ⟨k', v'⟩ := kv
    simp only [jset]
    split
    · rename_i hk
      subst hk
      simp
      tauto
    · simp [ih]
      tauto

theorem jset_nodup (l : JObj) (k : String) (v : JSON)
    (h : (l.map Prod.fst).Nodup) : ((jset l k v).map Prod.fst).Nodup := by
  induction l with
  | nil => simp [jset]
  | cons kv rest ih =>
    obtain ⟨k', v'⟩ := kv
    simp only [List.map, List.nodup_cons] at h
    simp only [jset]
    split
    · rename_i hk
      subst hk
      simp only [List.map, List.nodup_cons]
      exact h
    · rename_i hk
      simp only [List.map, List.nodup_cons]
      constructor
      · intro hmem
        rw [jset_keys_mem] at hmem
        rcases hmem with hmem | hmem
        · exact h.1 hmem
        · exact hk hmem
      · exact ih h.2

theorem jdel_nodup (l : JObj) (k : String)
    (h : (l.map Prod.fst).Nodup) : ((jdel l k).map Prod.fst).Nodup := by
  have hs : List.Sublist ((jdel l k).map Prod.fst) (l.map Prod.fst) :=
    List.Sublist.map Prod.fst (List.filter_sublist l)
  exact h.sublist hs

theorem jupdate_nodup (src : JObj) :
    ∀ base : JObj, (base.map Prod.fst).Nodup →
      ((jupdate base src).map Prod.fst).Nodup := by
  induction src with
  | nil => intro base h; exact h
  | cons kv rest ih =>
    intro base h
    exact ih (jset base kv.1 kv.2) (jset_nodup base kv.1 kv.2 h)

theorem jupdate_fresh (src : JObj) :
    ∀ base : JObj, (∀ kv ∈ src, jget base kv.1 = none) →
      (src.map Prod.fst).Nodup → jupdate base src = base ++ src := by
  induction src with
  | nil => intro base _ _; simp [jupdate]
  | cons kv rest ih =>
    intro base hfresh hnd
    obtain ⟨k, v⟩ := kv
    simp only [List.map, List.nodup_cons] at hnd
    have h1 : jget base k = none := hfresh (k, v) (by simp)
    have hstep : jupdate base ((k, v) :: rest) = jupdate (base ++ [(k, v)]) rest := by
      simp [jupdate, List.foldl, jset_fresh base k v h1]
    rw [hstep, ih (base ++ [(k, v)])]
    · simp
    · intro kv' hkv'
      have hne : kv'.1 ≠ k := by
        intro he
        exact hnd.1 (he ▸ (List.mem_map.mpr ⟨kv', hkv', rfl⟩))
      have hne2 : ¬ k = kv'.1 := fun e => hne (Eq.symm e)
      rw [jget_append_none _ _ _ (hfresh kv' (by simp [hkv']))]
      simp [jget, hne2]
    · exact hnd.2

theorem jupdate_nil_id (l : JObj) (h : (l.map Prod.fst).Nodup) :
    jupdate [] l = l := by
  have := jupdate_fresh l [] (fun kv _ => rfl) h
  simpa using this

/-! ### Path lemmas -/

theorem normCompsAux_mem :
    ∀ (l acc : List String) (c : String), c ∈ normCompsAux acc l →
      c ∈ acc ∨ c ∈ l := by
  intro l
  induction l with
  | nil =>
    intro acc c h
    simp only [normCompsAux, List.mem_reverse] at h
    exact Or.inl h
  | cons x rest ih =>
    intro acc c h
    simp only [normCompsAux] at h
    split at h
    · rcases ih acc c h with h' | h' <;> simp [h']
    · split at h
      · rcases ih (acc.drop 1) c h with h' | h'
        · exact Or.inl (List.drop_subset 1 acc h')
        · simp [h']
      · rcases ih (x :: acc) c h with h' | h'
        · rcases List.mem_cons.mp h' with h'' | h'' <;> simp [h'']
        · simp [h']

theorem normCompsAux_noSpecial :
    ∀ (l acc : List String),
      (∀ c ∈ acc, c ≠ "" ∧ c ≠ "." ∧ c ≠ "..") →
      ∀ c ∈ normCompsAux acc l, c ≠ "" ∧ c ≠ "." ∧ c ≠ ".." := by
  intro l
  induction l with
  | nil =>
    intro acc hacc c h
    simp only [normCompsAux, List.mem_reverse] at h
    exact hacc c h
  | cons x rest ih =>
    intro acc hacc c h
    simp only [normCompsAux] at h
    split at h
    · exact ih acc hacc c h
    · split at h
      · exact ih (acc.drop 1) (fun c' hc' => hacc c' (List.drop_subset 1 acc hc')) c h
      · rename_i h1 h2
        refine ih (x :: acc) ?_ c h
        intro c' hc'
        rcases List.mem_cons.mp hc' with h' | h'
        · subst h'
          push_neg at h1
          exact ⟨h1.1, h1.2, h2⟩
        · exact hacc c' h'

theorem normCompsAux_of_noSpecial :
    ∀ (l acc : List String),
      (∀ c ∈ l, c ≠ "" ∧ c ≠ "." ∧ c ≠ "..") →
      normCompsAux acc l = acc.reverse ++ l := by
  intro l
  induction l with
  | nil => intro acc _; simp [normCompsAux]
  | cons x rest ih =>
    intro acc h
    have hx := h x (by simp)
    simp only [normCompsAux]
    rw [if_neg (by tauto), if_neg hx.2.2]
    rw [ih (x :: acc) (fun c hc => h c (by simp [hc]))]
    simp

theorem normComps_noSpecial (l : List String) :
    ∀ c ∈ normComps l, c ≠ "" ∧ c ≠ "." ∧ c ≠ ".." :=
  normCompsAux_noSpecial l [] (by simp)

theorem normComps_mem (l : List String) (c : String) (h : c ∈ normComps l) :
    c ∈ l := by
  rcases normCompsAux_mem l [] c h with h' | h'
  · cases h'
  · exact h'

theorem normComps_idem (l : List String) : normComps (normComps l) = normComps l := by
  have := normCompsAux_of_noSpecial (normComps l) [] (normComps_noSpecial l)
  simpa [normComps] using this

theorem splitSlashAux_noslash :
    ∀ (l cur : List Char), '/' ∉ cur →
      ∀ g ∈ splitSlashAux cur l, '/' ∉ g := by
  intro l
  induction l with
  | nil =>
    intro cur hcur g hg
    simp only [splitSlashAux, List.mem_singleton] at hg
    subst hg
    simpa using hcur
  | cons c rest ih =>
    intro cur hcur g hg
    simp only [splitSlashAux] at hg
    split at hg
    · rcases List.mem_cons.mp hg with h' | h'
      · subst h'
        simpa using hcur
      · exact ih [] (by simp) g h'
    · rename_i hc
      refine ih (c :: cur) ?_ g hg
      intro hmem
      rcases List.mem_cons.mp hmem with h' | h'
      · exact hc h'.symm
      · exact hcur h'

theorem splitSlashAux_append :
    ∀ (g : List Char) (cur t : List Char), '/' ∉ g →
      splitSlashAux cur (g ++ t) = splitSlashAux (g.reverse ++ cur) t := by
  intro g
  induction g with
  | nil => intro cur t _; simp
  | cons c g' ih =>
    intro cur t h
    have hc : ¬ c = '/' := by
      intro e
      exact h (by simp [e])
    simp only [List.cons_append, splitSlashAux, if_neg hc]
    show splitSlashAux (c :: cur) (g' ++ t) = splitSlashAux ((c :: g').reverse ++ cur) t
    rw [ih (c :: cur) t (fun hm => h (by simp [hm]))]
    simp

theorem splitSlash_joinComps :
    ∀ gs : List (List Char), (∀ g ∈ gs, g ≠ [] ∧ '/' ∉ g) →
      splitSlashAux [] (joinComps gs) = if gs.isEmpty then [[]] else gs := by
  intro gs
  induction gs with
  | nil => intro _; simp [joinComps, splitSlashAux]
  | cons g rest ih =>
    intro h
    have hg := h g (by simp)
    cases rest with
    | nil =>
      simp only [joinComps]
      have := splitSlashAux_append g [] [] hg.2
      simp only [List.append_nil] at this
      rw [this]
      simp [splitSlashAux]
    | cons g2 rest2 =>
      have hjoin : joinComps (g :: g2 :: rest2) = g ++ '/' :: joinComps (g2 :: rest2) := rfl
      rw [hjoin]
      rw [splitSlashAux_append g [] ('/' :: joinComps (g2 :: rest2)) hg.2]
      simp only [List.append_nil, splitSlashAux, if_pos rfl]
      rw [ih (fun g' hg' => h g' (by simp [hg']))]
      simp

theorem string_mk_data (c : String) : String.mk c.data = c := rfl

theorem goodComp_spec (c : String) (h : goodComp c = true) :
    c.data ≠ [] ∧ c ≠ "." ∧ '/' ∉ c.data := by
  unfold goodComp at h
  rw [Bool.and_eq_true, Bool.and_eq_true] at h
  obtain ⟨⟨hne, hdot⟩, hslash⟩ := h
  refine ⟨?_, by simpa using hdot, ?_⟩
  · intro he
    have hc : c = "" := by
      rw [← string_mk_data c, he]
    rw [hc] at hne
    simp at hne
  · intro hm
    have hc : c.data.contains '/' = true := by
      simpa [List.contains] using List.elem_eq_true_of_mem hm
    rw [hc] at hslash
    simp at hslash

theorem pathParts_renderAbs (comps : List String)
    (h : ∀ c ∈ comps, goodComp c = true) :
    pathParts (renderAbs comps) = comps := by
  have hgs : ∀ g ∈ comps.map String.data, g ≠ [] ∧ '/' ∉ g := by
    intro g hg
    rcases List.mem_map.mp hg with ⟨c, hc, rfl⟩
    have := goodComp_spec c (h c hc)
    exact ⟨this.1, this.2.2⟩
  have hdata : (renderAbs comps).data = '/' :: joinComps (comps.map String.data) := rfl
  simp only [pathParts, hdata]
  have hsplit : splitSlashAux [] ('/' :: joinComps (comps.map String.data)) =
      [] :: splitSlashAux [] (joinComps (comps.map String.data)) := by
    simp [splitSlashAux]
  rw [hsplit, splitSlash_joinComps (comps.map String.data) hgs]
  cases comps with
  | nil => rfl
  | cons c0 rest =>
    have hmapmk : List.map (fun g => String.mk g) ((c0 :: rest).map String.data) =
        c0 :: rest := by
      rw [List.map_map]
      have hcomp : (fun g => String.mk g) ∘ String.data = id := funext (fun c => rfl)
      rw [hcomp, List.map_id]
    show (List.map (fun g => String.mk g)
        ([] :: (c0 :: rest).map String.data)).filter
        (fun c => c != "" && c != ".") = c0 :: rest
    rw [List.map_cons, hmapmk, List.filter_cons]
    rw [show ((String.mk [] != "") && (String.mk [] != ".")) = false from rfl]
    simp only [Bool.false_eq_true, if_false]
    exact List.filter_eq_self.mpr (fun a ha => by
      have hg := h a ha
      unfold goodComp at hg
      rw [Bool.and_eq_true, Bool.and_eq_true] at hg
      simp [hg.1.1, hg.1.2])

theorem isAbsPath_renderAbs (comps : List String) :
    isAbsPath (renderAbs comps) = true := rfl

/-- C1: for every sandbox root and raw path, the Sandbox Resolver either
returns the normalized absolute path (absolute inputs used after
normalization, relative inputs joined to the root) located at or beneath
the root, or fails with the sandbox-escape `ValueError`; traversal inputs
such as `../../etc/passwd` are rejected. The model is a pure function, so
the resolver performs no side effects. -/
theorem c1_sandbox_resolver_confinement (raw : String) (sandbox : List String) :
    (∀ p, resolve_in_sandbox raw sandbox = .ok p →
        (normComps sandbox).isPrefixOf p = true ∧
        p = normComps (if isAbsPath raw then pathParts raw
                       else sandbox ++ pathParts raw)) ∧
    resolve_in_sandbox "../../etc/passwd" ["srv", "box"] =
      .error "refusing to operate outside sandbox" := by
  constructor
  · intro p hp
    simp only [resolve_in_sandbox] at hp
    by_cases hraw : raw = ""
    · rw [if_pos hraw] at hp
      cases hp
    · rw [if_neg hraw] at hp
      cases hb : (normComps sandbox).isPrefixOf
          (normComps (if isAbsPath raw then pathParts raw
                      else sandbox ++ pathParts raw)) with
      | false =>
        rw [hb] at hp
        simp at hp
      | true =>
        rw [hb] at hp
        simp only [if_pos] at hp
        simp at hp
        refine ⟨?_, hp.symm⟩
        rw [← hp]
        exact hb
  · rfl

/-- Witness for C1 at a concrete in-sandbox input. -/
theorem c1_sandbox_resolver_confinement_witness :
    (normComps ["srv", "box"]).isPrefixOf ["srv", "box", "notes", "a.txt"] = true ∧
    ["srv", "box", "notes", "a.txt"] =
      normComps (if isAbsPath "notes/a.txt" then pathParts "notes/a.txt"
                 else ["srv", "box"] ++ pathParts "notes/a.txt") :=
  (c1_sandbox_resolver_confinement "notes/a.txt" ["srv", "box"]).1
    ["srv", "box", "notes", "a.txt"] (by rfl)

/-! ### deep_merge lemmas -/

theorem contains_iff_mem (l : List String) (a : String) :
    l.contains a = true ↔ a ∈ l := by
  simp [List.contains, List.elem_iff]

theorem dedupKeys_mem :
    ∀ (l seen : List String) (k : String),
      k ∈ dedupKeys seen l ↔ k ∈ l ∧ k ∉ seen := by
  intro l
  induction l with
  | nil => intro seen k; simp [dedupKeys]
  | cons x rest ih =>
    intro seen k
    simp only [dedupKeys]
    by_cases hx : x ∈ seen
    · rw [if_pos ((contains_iff_mem seen x).mpr hx)]
      rw [ih]
      constructor
      · rintro ⟨h1, h2⟩
        exact ⟨by simp [h1], h2⟩
      · rintro ⟨h1, h2⟩
        rcases List.mem_cons.mp h1 with h' | h'
        · subst h'
          exact absurd hx h2
        · exact ⟨h', h2⟩
    · rw [if_neg (fun hc => hx ((contains_iff_mem seen x).mp hc))]
      constructor
      · intro hmem
        rcases List.mem_cons.mp hmem with h' | h'
        · subst h'
          exact ⟨by simp, hx⟩
        · have := (ih (x :: seen) k).mp h'
          refine ⟨by simp [this.1], fun hk => this.2 (by simp [hk])⟩
      · rintro ⟨h1, h2⟩
        by_cases hkx : k = x
        · subst hkx
          simp
        · rcases List.mem_cons.mp h1 with h' | h'
          · exact absurd h' hkx
          · exact List.mem_cons.mpr (Or.inr ((ih (x :: seen) k).mpr
              ⟨h', fun hm => by
                rcases List.mem_cons.mp hm with h'' | h''
                · exact hkx h''
                · exact h2 h''⟩))

theorem jget_isSome_iff (l : JObj) (k : String) :
    (jget l k).isSome = true ↔ k ∈ l.map Prod.fst := by
  constructor
  · intro h
    by_contra hk
    rw [(jget_eq_none_iff l k).mpr hk] at h
    cases h
  · intro hk
    rcases hopt : jget l k with _ | v
    · exact absurd ((jget_eq_none_iff l k).mp hopt) (by simp [hk])
    · rfl

theorem mem_unionKeys (b p : JObj) (k : String) :
    k ∈ unionKeys b p ↔ (jget b k).isSome = true ∨ (jget p k).isSome = true := by
  unfold unionKeys
  rw [dedupKeys_mem]
  simp [List.mem_append, jget_isSome_iff]

theorem jget_deepMergeAux (b p : JObj) :
    ∀ (keys : List String) (k : String),
      jget (deepMergeAux b p keys) k =
        if k ∈ keys then
          some (match jget b k, jget p k with
                | some (.obj bo), some (.obj po) => JSON.obj (deep_merge bo po)
                | _, some pv => pv
                | some bv, none => bv
                | none, none => JSON.null)
        else none := by
  intro keys
  induction keys with
  | nil =>
    intro k
    simp [deepMergeAux, jget]
  | cons k0 rest ih =>
    intro k
    rw [deepMergeAux]
    by_cases hk : k0 = k
    · subst hk
      simp only [jget, if_pos rfl, List.mem_cons, true_or, if_true]
      congr 1
      rcases jget b k0 with _ | vb <;> rcases jget p k0 with _ | vp
      · rfl
      · cases vp <;> rfl
      · cases vb <;> rfl
      · cases vb <;> cases vp <;> rfl
    · have hk' : ¬ k = k0 := fun e => hk e.symm
      simp only [jget, if_neg hk, ih k, List.mem_cons]
      by_cases hmem : k ∈ rest <;> simp [hmem, hk']

theorem jget_deep_merge (b p : JObj) (k : String) :
    jget (deep_merge b p) k =
      if (jget b k).isSome = true ∨ (jget p k).isSome = true then
        some (match jget b k, jget p k with
              | some (.obj bo), some (.obj po) => JSON.obj (deep_merge bo po)
              | _, some pv => pv
              | some bv, none => bv
              | none, none => JSON.null)
      else none := by
  rw [deep_merge, jget_deepMergeAux b p (unionKeys b p) k]
  by_cases hmem : k ∈ unionKeys b p
  · rw [if_pos hmem, if_pos ((mem_unionKeys b p k).mp hmem)]
  · rw [if_neg hmem, if_neg (fun h => hmem ((mem_unionKeys b p k).mpr h))]

/-! ### Filesystem lemmas -/

theorem fsGet_fsSet_self (files : List (List String × FileContent))
    (p : List String) (c : FileContent) : fsGet (fsSet files p c) p = some c := by
  induction files with
  | nil => simp [fsSet, fsGet]
  | cons qc rest ih =>
    obtain ⟨q, c'⟩ := qc
    simp only [fsSet]
    split
    · simp [fsGet]
    · rename_i hne
      simpa [fsGet, hne] using ih

theorem fsGet_fsSet_ne (files : List (List String × FileContent))
    (p q : List String) (c : FileContent) (h : q ≠ p) :
    fsGet (fsSet files p c) q = fsGet files q := by
  have h' : ¬ p = q := fun e => h e.symm
  induction files with
  | nil => simp [fsSet, fsGet, h']
  | cons qc rest ih =>
    obtain ⟨q', c'⟩ := qc
    simp only [fsSet]
    split
    · rename_i hq
      subst hq
      simp [fsGet, h']
    · by_cases hq : q' = q <;> simp [fsGet, hq, ih]

theorem bakPath_ne (p : List String) (h : p ≠ []) : bakPath p ≠ p := by
  intro he
  have hsplit : p.dropLast ++ [p.getLast h] = p := List.dropLast_append_getLast h
  have hd : p.getLastD "" = p.getLast h := by
    rw [List.getLastD_eq_getLast?, List.getLast?_eq_getLast p h]
    rfl
  unfold bakPath at he
  rw [hd] at he
  have heq : p.dropLast ++ [p.getLast h ++ ".bak"] = p.dropLast ++ [p.getLast h] :=
    he.trans hsplit.symm
  have hx := List.append_cancel_left heq
  have hx2 : p.getLast h ++ ".bak" = p.getLast h := by
    injection hx
  have hlen : (p.getLast h).length + ".bak".length = (p.getLast h).length := by
    rw [← String.length_append, hx2]
  have h4 : ".bak".length = 4 := rfl
  rw [h4] at hlen
  omega

theorem bind_ok_elim {α β : Type} (a : α) (f : α → Except String β) :
    (Bind.bind (Except.ok a) f : Except String β) = f a := rfl

theorem addDirs_files (d : List String) (w : World) : (addDirs d w).files = w.files := rfl

theorem addDirs_log (d : List String) (w : World) : (addDirs d w).log = w.log := rfl

theorem logEv_files (e : Ev) (w : World) : (logEv e w).files = w.files := rfl

/-- C4: a successful `patch_json` on an existing JSON object document leaves
the target holding exactly `deep_merge(D, P)`, and `deep_merge` merges
object-valued keys recursively while any key present in the patch with a
non-object value (or a non-object base value) is replaced wholesale, base
keys absent from the patch staying unchanged. -/
theorem c4_patch_json_round_trip (step : JObj) (ctx : Ctx) (label : String)
    (attempt : Nat) (w : World) (p : List String) (dfields pfields : JObj)
    (hdry : ctx.dryRun = false)
    (hres : resolve_in_sandbox (jgetStrD step "path" "") ctx.sandbox = .ok p)
    (hpatch : jor (jor (jgetN step "patch") (jgetN step "updates")) (.obj []) =
      .obj pfields)
    (hfile : fsGet w.files p = some (.jdoc (.obj dfields))) :
    (∃ w', perform_patch_json step ctx label attempt w =
        .ok (⟨true, 0, "patched json at " ++ renderAbs p, "", attempt, label,
              "patch_json"⟩, w') ∧
        fsGet w'.files p = some (.jdoc (.obj (deep_merge dfields pfields)))) ∧
    (∀ (b q : JObj) (k : String),
      (∀ bo po, jget b k = some (.obj bo) → jget q k = some (.obj po) →
        jget (deep_merge b q) k = some (.obj (deep_merge bo po))) ∧
      (∀ pv, jget q k = some pv →
        (∀ bo po, jget b k = some (.obj bo) → pv = .obj po → False) →
        jget (deep_merge b q) k = some pv) ∧
      (jget q k = none → jget (deep_merge b q) k = jget b k)) := by
  constructor
  · unfold perform_patch_json
    rw [hres, bind_ok_elim]
    simp only [hpatch, hfile, hdry, create_backup]
    simp only [Bool.false_eq_true, if_false]
    refine ⟨_, rfl, ?_⟩
    exact fsGet_fsSet_self _ _ _
  · intro b q k
    refine ⟨?_, ?_, ?_⟩
    · intro bo po hb hq
      rw [jget_deep_merge, if_pos (Or.inl (by simp [hb])), hb, hq]
    · intro pv hq hnot
      rw [jget_deep_merge, if_pos (Or.inr (by simp [hq])), hq]
      rcases hb : jget b k with _ | vb
      · rfl
      · cases vb with
        | obj bo =>
          cases pv with
          | obj po => exact (hnot bo po hb rfl).elim
          | null => rfl
          | bool x => rfl
          | num x => rfl
          | str x => rfl
          | arr x => rfl
        | null => rfl
        | bool x => rfl
        | num x => rfl
        | str x => rfl
        | arr x => rfl
    · intro hq
      rw [jget_deep_merge, hq]
      rcases hb : jget b k with _ | vb
      · simp
      · simp only [Option.isSome_some, true_or, if_true]

/-- Witness for C4 at a concrete document and patch. -/
theorem c4_patch_json_round_trip_witness :
    ∃ w', perform_patch_json
        [("path", JSON.str "cfg.json"), ("patch", JSON.obj [("a", JSON.num 1)])]
        ⟨["box"], false, false, fun _ => false, fun _ => 0⟩ "s" 1
        ⟨[(["box", "cfg.json"],
           .jdoc (.obj [("a", JSON.num 0), ("b", JSON.num 5)]))], [], [], 0⟩ =
      .ok (⟨true, 0, "patched json at " ++ renderAbs ["box", "cfg.json"], "", 1, "s",
            "patch_json"⟩, w') ∧
      fsGet w'.files ["box", "cfg.json"] =
        some (.jdoc (.obj (deep_merge [("a", JSON.num 0), ("b", JSON.num 5)]
          [("a", JSON.num 1)]))) :=
  (c4_patch_json_round_trip
    [("path", JSON.str "cfg.json"), ("patch", JSON.obj [("a", JSON.num 1)])]
    ⟨["box"], false, false, fun _ => false, fun _ => 0⟩ "s" 1
    ⟨[(["box", "cfg.json"],
       .jdoc (.obj [("a", JSON.num 0), ("b", JSON.num 5)]))], [], [], 0⟩
    ["box", "cfg.json"] [("a", JSON.num 0), ("b", JSON.num 5)] [("a", JSON.num 1)]
    rfl rfl rfl rfl).1

theorem mem_addDirs_mono (d b : List String) (w : World) (h : d ∈ w.dirs) :
    d ∈ (addDirs b w).dirs := by
  unfold addDirs
  simp only [List.mem_append]
  exact Or.inl h

theorem mem_addDirs_self (d b : List String) (w : World) (h : d ∈ dirPrefixes b) :
    d ∈ (addDirs b w).dirs := by
  unfold addDirs
  simp only [List.mem_append]
  by_cases hmem : d ∈ w.dirs
  · exact Or.inl hmem
  · refine Or.inr (List.mem_filter.mpr ⟨h, ?_⟩)
    simp [hmem, contains_iff_mem]

/-- C5: a `write` step outside dry-run copies an existing target to its
`.bak` sibling before writing (the backup holds the prior content, the
target the new content), creates no backup when the target is absent,
creates the parent directories, and leaves the target holding exactly the
given content; all other files are untouched. -/
theorem c5_write_backup (step : JObj) (ctx : Ctx) (label : String)
    (attempt : Nat) (w : World) (p : List String)
    (hdry : ctx.dryRun = false)
    (hres : resolve_in_sandbox (jgetStrD step "path" "") ctx.sandbox = .ok p)
    (hp : p ≠ []) :
    ∃ r w', perform_write step ctx label attempt w = .ok (r, w') ∧
      r.success = true ∧ r.rc = 0 ∧
      fsGet w'.files p = some (.text (jgetStrD step "content" "")) ∧
      (∀ c, fsGet w.files p = some c → fsGet w'.files (bakPath p) = some c) ∧
      (fsGet w.files p = none →
        fsGet w'.files (bakPath p) = fsGet w.files (bakPath p)) ∧
      (∀ q, q ≠ p → q ≠ bakPath p → fsGet w'.files q = fsGet w.files q) ∧
      (∀ d, d ∈ dirPrefixes p.dropLast → d ∈ w'.dirs) := by
  rcases hfile : fsGet w.files p with _ | c
  · have hrun : perform_write step ctx label attempt w =
        .ok (⟨true, 0, "wrote " ++ toString (jgetStrD step "content" "").length ++
              " bytes to " ++ renderAbs p, "", attempt, label, "write"⟩,
          { addDirs p.dropLast w with
            files := fsSet w.files p (.text (jgetStrD step "content" "")) }) := by
      unfold perform_write
      rw [hres, bind_ok_elim]
      simp only [hdry, Bool.false_eq_true, if_false, create_backup, addDirs_files, hfile]
      rfl
    refine ⟨_, _, hrun, rfl, rfl, ?_, ?_, ?_, ?_, ?_⟩
    · show fsGet (fsSet w.files p (.text (jgetStrD step "content" ""))) p = _
      exact fsGet_fsSet_self _ _ _
    · intro c hc
      exact Option.noConfusion hc
    · intro _
      show fsGet (fsSet w.files p (.text (jgetStrD step "content" ""))) (bakPath p) = _
      exact fsGet_fsSet_ne _ _ _ _ (bakPath_ne p hp)
    · intro q hq1 _
      show fsGet (fsSet w.files p (.text (jgetStrD step "content" ""))) q = _
      exact fsGet_fsSet_ne _ _ _ _ hq1
    · intro d hd
      show d ∈ (addDirs p.dropLast w).dirs
      exact mem_addDirs_self d p.dropLast w hd
  · have hrun : perform_write step ctx label attempt w =
        .ok (⟨true, 0, "wrote " ++ toString (jgetStrD step "content" "").length ++
              " bytes to " ++ renderAbs p, "", attempt, label, "write"⟩,
          { logEv (.backupEv p (bakPath p))
              (addDirs (bakPath p).dropLast (addDirs p.dropLast w)) with
            files := fsSet (fsSet w.files (bakPath p) c) p
              (.text (jgetStrD step "content" "")) }) := by
      unfold perform_write
      rw [hres, bind_ok_elim]
      simp only [hdry, Bool.false_eq_true, if_false, create_backup, addDirs_files, hfile]
      rfl
    refine ⟨_, _, hrun, rfl, rfl, ?_, ?_, ?_, ?_, ?_⟩
    · show fsGet (fsSet (fsSet w.files (bakPath p) c) p
          (.text (jgetStrD step "content" ""))) p = _
      exact fsGet_fsSet_self _ _ _
    · intro c' hc'
      cases hc'
      show fsGet (fsSet (fsSet w.files (bakPath p) c) p
          (.text (jgetStrD step "content" ""))) (bakPath p) = some c
      rw [fsGet_fsSet_ne _ _ _ _ (bakPath_ne p hp)]
      exact fsGet_fsSet_self _ _ _
    · intro hnone
      exact Option.noConfusion hnone
    · intro q hq1 hq2
      show fsGet (fsSet (fsSet w.files (bakPath p) c) p
          (.text (jgetStrD step "content" ""))) q = _
      rw [fsGet_fsSet_ne _ _ _ _ hq1, fsGet_fsSet_ne _ _ _ _ hq2]
    · intro d hd
      show d ∈ (addDirs (bakPath p).dropLast (addDirs p.dropLast w)).dirs
      exact mem_addDirs_mono _ _ _ (mem_addDirs_self d p.dropLast w hd)

/-- Witness for C5: scenario A/B shape, fresh sandbox write. -/
theorem c5_write_backup_witness :
    ∃ r w', perform_write [("path", JSON.str "note.txt"), ("content", JSON.str "hello")]
        ⟨["box"], false, false, fun _ => false, fun _ => 0⟩ "s" 1 ⟨[], [], [], 0⟩ =
        .ok (r, w') ∧
      r.success = true ∧ r.rc = 0 ∧
      fsGet w'.files ["box", "note.txt"] =
        some (.text (jgetStrD [("path", JSON.str "note.txt"),
          ("content", JSON.str "hello")] "content" "")) ∧
      (∀ c, fsGet (⟨[], [], [], 0⟩ : World).files ["box", "note.txt"] = some c →
        fsGet w'.files (bakPath ["box", "note.txt"]) = some c) ∧
      (fsGet (⟨[], [], [], 0⟩ : World).files ["box", "note.txt"] = none →
        fsGet w'.files (bakPath ["box", "note.txt"]) =
          fsGet (⟨[], [], [], 0⟩ : World).files (bakPath ["box", "note.txt"])) ∧
      (∀ q, q ≠ ["box", "note.txt"] → q ≠ bakPath ["box", "note.txt"] →
        fsGet w'.files q = fsGet (⟨[], [], [], 0⟩ : World).files q) ∧
      (∀ d, d ∈ dirPrefixes (["box", "note.txt"].dropLast) → d ∈ w'.dirs) :=
  c5_write_backup [("path", JSON.str "note.txt"), ("content", JSON.str "hello")]
    ⟨["box"], false, false, fun _ => false, fun _ => 0⟩ "s" 1 ⟨[], [], [], 0⟩
    ["box", "note.txt"] rfl rfl (by simp)

/-! ### Executor control-flow lemmas -/

theorem bind_error_elim {α β : Type} (e : String) (f : α → Except String β) :
    (Bind.bind (Except.error e) f : Except String β) = .error e := rfl

theorem pure_eq_ok {α : Type} (a : α) : (pure a : Except String α) = .ok a := rfl

theorem ok_pair_elim {α β : Type} {a : α} {b : β} {r : α} {w' : β}
    (h : (Except.ok (a, b) : Except String (α × β)) = .ok (r, w')) :
    r = a ∧ w' = b := by
  injection h with h1
  exact ⟨(congrArg Prod.fst h1).symm, (congrArg Prod.snd h1).symm⟩

theorem countStarts_append (a b : List Ev) :
    countStarts (a ++ b) = countStarts a + countStarts b := by
  unfold countStarts
  rw [List.filter_append, List.length_append]

theorem countStarts_logEv_nonStart (e : Ev) (w : World)
    (h : (match e with | .stepStart _ _ _ => false | _ => true) = true) :
    countStarts (logEv e w).log = countStarts w.log := by
  show countStarts (w.log ++ [e]) = countStarts w.log
  rw [countStarts_append]
  have : countStarts [e] = 0 := by
    unfold countStarts
    cases e <;> simp_all [List.filter]
  omega

theorem countStarts_logEv_start (label op : String) (attempt : Nat) (w : World) :
    countStarts (logEv (.stepStart label op attempt) w).log = countStarts w.log + 1 := by
  show countStarts (w.log ++ [Ev.stepStart label op attempt]) = countStarts w.log + 1
  rw [countStarts_append]
  rfl

theorem perform_read_log (step : JObj) (ctx : Ctx) (label : String) (attempt : Nat)
    (w : World) (r : StepResult) (w' : World)
    (h : perform_read step ctx label attempt w = .ok (r, w')) :
    countStarts w'.log = countStarts w.log := by
  unfold perform_read at h
  rcases hres : resolve_in_sandbox (jgetStrD step "path" "") ctx.sandbox with e | p
  · rw [hres, bind_error_elim] at h
    cases h
  · rw [hres, bind_ok_elim] at h
    split at h
    · rw [pure_eq_ok] at h
      obtain ⟨_, hw⟩ := ok_pair_elim h
      rw [hw]
    · split at h <;>
      · rw [pure_eq_ok] at h
        obtain ⟨_, hw⟩ := ok_pair_elim h
        rw [hw]

theorem create_backup_none (p : List String) (W : World)
    (hf : fsGet W.files p = none) : create_backup p W = (none, W) := by
  unfold create_backup
  rw [hf]

theorem create_backup_some (p : List String) (W : World) (c : FileContent)
    (hf : fsGet W.files p = some c) :
    create_backup p W = (some (bakPath p),
      { addDirs (bakPath p).dropLast W with
        files := fsSet (addDirs (bakPath p).dropLast W).files (bakPath p) c }) := by
  unfold create_backup
  rw [hf]

theorem perform_write_log (step : JObj) (ctx : Ctx) (label : String) (attempt : Nat)
    (w : World) (r : StepResult) (w' : World)
    (h : perform_write step ctx label attempt w = .ok (r, w')) :
    countStarts w'.log = countStarts w.log := by
  unfold perform_write at h
  rcases hres : resolve_in_sandbox (jgetStrD step "path" "") ctx.sandbox with e | p
  · rw [hres, bind_error_elim] at h
    cases h
  · rw [hres, bind_ok_elim] at h
    split at h
    · rw [pure_eq_ok] at h
      obtain ⟨_, hw⟩ := ok_pair_elim h
      rw [hw]
    · simp only [pure_eq_ok] at h
      rcases hfile : fsGet (addDirs p.dropLast w).files p with _ | c
      · simp only [create_backup_none p (addDirs p.dropLast w) hfile] at h
        obtain ⟨_, hw⟩ := ok_pair_elim h
        rw [hw]
        show countStarts (addDirs p.dropLast w).log = countStarts w.log
        rw [addDirs_log]
      · simp only [create_backup_some p (addDirs p.dropLast w) c hfile] at h
        obtain ⟨_, hw⟩ := ok_pair_elim h
        rw [hw]
        show countStarts (logEv (.backupEv p (bakPath p))
          (addDirs (bakPath p).dropLast (addDirs p.dropLast w))).log = countStarts w.log
        rw [countStarts_logEv_nonStart _ _ rfl]
        show countStarts (addDirs (bakPath p).dropLast (addDirs p.dropLast w)).log = _
        rw [addDirs_log, addDirs_log]

theorem perform_patch_json_log (step : JObj) (ctx : Ctx) (label : String)
    (attempt : Nat) (w : World) (r : StepResult) (w' : World)
    (h : perform_patch_json step ctx label attempt w = .ok (r, w')) :
    countStarts w'.log = countStarts w.log := by
  unfold perform_patch_json at h
  rcases hres : resolve_in_sandbox (jgetStrD step "path" "") ctx.sandbox with e | p
  · rw [hres, bind_error_elim] at h
    cases h
  · rw [hres, bind_ok_elim] at h
    rcases hjor : jor (jor (jgetN step "patch") (jgetN step "updates")) (.obj []) with
      _ | b | n | sv | el | pf
    all_goals try (
      simp only [hjor, pure_eq_ok] at h
      obtain ⟨_, hw⟩ := ok_pair_elim h
      rw [hw])
    simp only [hjor] at h
    rcases hfile : fsGet w.files p with _ | c
    · simp only [hfile, pure_eq_ok] at h
      obtain ⟨_, hw⟩ := ok_pair_elim h
      rw [hw]
    · cases c with
      | text s =>
        simp only [hfile, pure_eq_ok] at h
        obtain ⟨_, hw⟩ := ok_pair_elim h
        rw [hw]
      | jdoc d =>
        cases d with
        | obj dfields =>
          simp only [hfile] at h
          rcases hdry : ctx.dryRun with _ | _
          · simp only [hdry, Bool.false_eq_true, if_false, pure_eq_ok] at h
            rcases hfile2 : fsGet w.files p with _ | c2
            · simp only [create_backup_none p w hfile2] at h
              obtain ⟨_, hw⟩ := ok_pair_elim h
              rw [hw]
            · simp only [create_backup_some p w c2 hfile2] at h
              obtain ⟨_, hw⟩ := ok_pair_elim h
              rw [hw]
              show countStarts (logEv (.backupEv p (bakPath p))
                (addDirs (bakPath p).dropLast w)).log = countStarts w.log
              rw [countStarts_logEv_nonStart _ _ rfl]
              show countStarts (addDirs (bakPath p).dropLast w).log = _
              rw [addDirs_log]
          · simp only [hdry, if_true, pure_eq_ok] at h
            obtain ⟨_, hw⟩ := ok_pair_elim h
            rw [hw]
        | null => simp only [hfile] at h; cases h
        | bool b2 => simp only [hfile] at h; cases h
        | num n2 => simp only [hfile] at h; cases h
        | str s2 => simp only [hfile] at h; cases h
        | arr a2 => simp only [hfile] at h; cases h

theorem perform_run_script_log (step : JObj) (ctx : Ctx) (label : String)
    (attempt : Nat) (w : World) (r : StepResult) (w' : World)
    (h : perform_run_script step ctx label attempt w = .ok (r, w')) :
    countStarts w'.log = countStarts w.log := by
  unfold perform_run_script at h
  repeat' split at h
  all_goals (obtain ⟨_, hw⟩ := ok_pair_elim h; rw [hw])

theorem handlerFor_log (op : JSON)
    (f : JObj → Ctx → String → Nat → World → Except String (StepResult × World))
    (hop : handlerFor op = some f) :
    ∀ step ctx label attempt w r w', f step ctx label attempt w = .ok (r, w') →
      countStarts w'.log = countStarts w.log := by
  unfold handlerFor at hop
  split at hop
  · cases hop
    exact fun step ctx label attempt w r w' h =>
      perform_read_log step ctx label attempt w r w' h
  · cases hop
    exact fun step ctx label attempt w r w' h =>
      perform_write_log step ctx label attempt w r w' h
  · cases hop
    exact fun step ctx label attempt w r w' h =>
      perform_patch_json_log step ctx label attempt w r w' h
  · cases hop
    exact fun step ctx label attempt w r w' h =>
      perform_run_script_log step ctx label attempt w r w' h
  · cases hop

theorem log_step_result_countStarts (r : StepResult) (w : World) :
    countStarts (log_step_result r w).log = countStarts w.log := by
  unfold log_step_result
  exact countStarts_logEv_nonStart _ _ rfl

theorem execute_step_countStarts (step : JObj) (ctx : Ctx) (label : String)
    (attempt : Nat) (w : World) (r : StepResult) (w' : World)
    (h : execute_step step ctx label attempt w = .ok (r, w')) :
    countStarts w'.log = countStarts w.log +
      (if (handlerFor (opOf step)).isSome then 1 else 0) := by
  unfold execute_step at h
  rcases hop : handlerFor (opOf step) with _ | f
  · rw [hop] at h
    obtain ⟨_, hw⟩ := ok_pair_elim h
    rw [hw, log_step_result_countStarts]
    simp [hop]
  · rw [hop] at h
    simp only [pure_eq_ok] at h
    rcases hcall : f step ctx label attempt
        (logEv (.stepStart label (pyStrOf (opOf step)) attempt) w) with e | rw2
    · simp only [hcall, bind_error_elim] at h
      exact Except.noConfusion h
    · obtain ⟨r2, w2⟩ := rw2
      simp only [hcall, bind_ok_elim] at h
      obtain ⟨_, hw⟩ := ok_pair_elim h
      rw [hw, log_step_result_countStarts]
      rw [handlerFor_log (opOf step) f hop step ctx label attempt _ r2 w2 hcall]
      rw [countStarts_logEv_start]
      simp [hop]

theorem execute_with_retry_cases (step : JObj) (ctx : Ctx) (label : String)
    (w : World) (r1 : StepResult) (w1 : World)
    (h1 : execute_step step ctx label 1 w = .ok (r1, w1)) :
    execute_with_retry step ctx label w =
      if r1.success || r1.rc == 2 then .ok (r1, w1)
      else execute_step step ctx label 2 (logEv (.retryEv label 2) w1) := by
  unfold execute_with_retry
  rw [h1, bind_ok_elim]
  simp only [pure_eq_ok]

/-- C3 (amended): over any handler-dispatched step, the Retry Controller
invokes the handler at most twice, and a second invocation happens if and
only if the first invocation failed with a code other than 2. Code 2 (exec
blocked) is returned after exactly one invocation, but the retry is *not*
limited to the transient set {1}: any other failing code (for example 4) is
also retried once. Invocations are counted as the `STEP_START` log lines
the dispatcher writes per handler call. -/
theorem c3_retry_once_unless_code2 (step : JObj) (ctx : Ctx) (label : String)
    (w : World) (r1 : StepResult) (w1 : World) (r : StepResult) (w' : World)
    (hsup : (handlerFor (opOf step)).isSome = true)
    (h1 : execute_step step ctx label 1 w = .ok (r1, w1))
    (hrun : execute_with_retry step ctx label w = .ok (r, w')) :
    ∃ n, countStarts w'.log = countStarts w.log + n ∧ n ≤ 2 ∧
      (n = 2 ↔ r1.success = false ∧ r1.rc ≠ 2) ∧
      (r1.success = false → r1.rc = 2 → n = 1 ∧ r = r1 ∧ w' = w1) := by
  rw [execute_with_retry_cases step ctx label w r1 w1 h1] at hrun
  by_cases hc : (r1.success || r1.rc == 2) = true
  · rw [if_pos hc] at hrun
    obtain ⟨hr, hw⟩ := ok_pair_elim hrun
    have hcount := execute_step_countStarts step ctx label 1 w r1 w1 h1
    rw [hsup] at hcount
    simp only [if_true] at hcount
    refine ⟨1, by rw [hw]; exact hcount, by omega, ?_, ?_⟩
    · constructor
      · intro h2
        exact absurd h2 (by omega)
      · rintro ⟨hf, hrc⟩
        rw [hf] at hc
        simp only [Bool.false_or] at hc
        exact absurd (by exact beq_iff_eq.mp hc) hrc
    · intro _ _
      exact ⟨rfl, hr, hw⟩
  · rw [if_neg hc] at hrun
    simp only [Bool.or_eq_true, not_or, Bool.not_eq_true] at hc
    obtain ⟨hf, hrc⟩ := hc
    have hrc' : r1.rc ≠ 2 := by
      intro he
      rw [he] at hrc
      simp at hrc
    have hstep2 := execute_step_countStarts step ctx label 2 _ r w' hrun
    have hstep1 := execute_step_countStarts step ctx label 1 w r1 w1 h1
    have hretrylog : countStarts (logEv (.retryEv label 2) w1).log =
        countStarts w1.log := countStarts_logEv_nonStart _ _ rfl
    rw [hsup] at hstep2 hstep1
    simp only [if_true] at hstep2 hstep1
    refine ⟨2, ?_, le_refl 2, ?_, ?_⟩
    · rw [hstep2, hretrylog, hstep1]
    · exact ⟨fun _ => ⟨hf, hrc'⟩, fun _ => rfl⟩
    · intro _ h2
      exact absurd h2 hrc'

/-- C3 counterexample to the claim as stated: a step whose handler fails
with the non-transient code 4 (a `read` of a missing file) is nevertheless
invoked a second time by `execute_with_retry`; the claim says a
first-attempt failure with a code outside {1,2} is returned without a
second invocation. -/
theorem c3_counterexample :
    ∃ r1 w1 r w',
      execute_step [("op", JSON.str "read"), ("path", JSON.str "missing.txt")]
        ⟨["box"], false, false, fun _ => false, fun _ => 0⟩ "s" 1
        ⟨[], [], [], 0⟩ = .ok (r1, w1) ∧
      r1.success = false ∧ r1.rc = 4 ∧
      execute_with_retry [("op", JSON.str "read"), ("path", JSON.str "missing.txt")]
        ⟨["box"], false, false, fun _ => false, fun _ => 0⟩ "s"
        ⟨[], [], [], 0⟩ = .ok (r, w') ∧
      countStarts w'.log = 2 ∧ r.attempt = 2 := by
  exact ⟨_, _, _, _, rfl, rfl, rfl, rfl, rfl, rfl⟩

/-- Witness for the amended C3 at a blocked `run_script` step (code 2,
exactly one invocation). -/
theorem c3_retry_once_unless_code2_witness :
    ∃ n, countStarts (⟨[], [], [Ev.stepStart "s" "run_script" 1,
        Ev.stepDone "s" "run_script" 1 2 false], 0⟩ : World).log =
        countStarts (⟨[], [], [], 0⟩ : World).log + n ∧ n ≤ 2 ∧
      (n = 2 ↔ (⟨false, 2, "", "run_script blocked: --allow-exec not set", 1, "s",
          "run_script"⟩ : StepResult).success = false ∧
        (⟨false, 2, "", "run_script blocked: --allow-exec not set", 1, "s",
          "run_script"⟩ : StepResult).rc ≠ 2) ∧
      ((⟨false, 2, "", "run_script blocked: --allow-exec not set", 1, "s",
          "run_script"⟩ : StepResult).success = false →
        (⟨false, 2, "", "run_script blocked: --allow-exec not set", 1, "s",
          "run_script"⟩ : StepResult).rc = 2 →
        n = 1 ∧
        (⟨false, 2, "", "run_script blocked: --allow-exec not set", 1, "s",
          "run_script"⟩ : StepResult) =
          ⟨false, 2, "", "run_script blocked: --allow-exec not set", 1, "s",
           "run_script"⟩ ∧
        (⟨[], [], [Ev.stepStart "s" "run_script" 1,
          Ev.stepDone "s" "run_script" 1 2 false], 0⟩ : World) =
          ⟨[], [], [Ev.stepStart "s" "run_script" 1,
           Ev.stepDone "s" "run_script" 1 2 false], 0⟩) :=
  c3_retry_once_unless_code2
    [("op", JSON.str "run_script"), ("script", JSON.str "x")]
    ⟨["box"], false, false, fun _ => false, fun _ => 0⟩ "s" ⟨[], [], [], 0⟩
    ⟨false, 2, "", "run_script blocked: --allow-exec not set", 1, "s", "run_script"⟩
    ⟨[], [], [Ev.stepStart "s" "run_script" 1,
      Ev.stepDone "s" "run_script" 1 2 false], 0⟩
    ⟨false, 2, "", "run_script blocked: --allow-exec not set", 1, "s", "run_script"⟩
    ⟨[], [], [Ev.stepStart "s" "run_script" 1,
      Ev.stepDone "s" "run_script" 1 2 false], 0⟩
    rfl rfl rfl

/-! ### Plan and compensation scan lemmas -/

theorem compScan_cons_ok (ctx : Ctx) (comp : JObj) (rest : List JSON) (idx : Nat)
    (w : World) (r0 : StepResult) (w0 : World)
    (hx : execute_with_retry comp ctx
      (stepLabel comp ("compensate-" ++ toString idx)) w = .ok (r0, w0)) :
    compScan ctx (JSON.obj comp :: rest) idx w =
      Bind.bind (compScan ctx rest (idx + 1) w0)
        (fun q => .ok (r0 :: q.1, q.2)) := by
  simp only [compScan]
  rw [hx, bind_ok_elim]

theorem compScan_cons_err (ctx : Ctx) (comp : JObj) (rest : List JSON) (idx : Nat)
    (w : World) (e : String)
    (hx : execute_with_retry comp ctx
      (stepLabel comp ("compensate-" ++ toString idx)) w = .error e) :
    compScan ctx (JSON.obj comp :: rest) idx w = .error e := by
  simp only [compScan]
  rw [hx, bind_error_elim]

theorem runCompAux_cons_ok (ctx : Ctx) (comp : JObj) (rest : List JSON) (idx : Nat)
    (allOk : Bool) (w : World) (r0 : StepResult) (w0 : World)
    (hx : execute_with_retry comp ctx
      (stepLabel comp ("compensate-" ++ toString idx)) w = .ok (r0, w0)) :
    runCompAux ctx (JSON.obj comp :: rest) idx allOk w =
      runCompAux ctx rest (idx + 1) (allOk && r0.success) w0 := by
  simp only [runCompAux]
  rw [hx, bind_ok_elim]

theorem compScan_length (ctx : Ctx) :
    ∀ (steps : List JSON) (idx : Nat) (w : World) (rs : List StepResult) (w2 : World),
      compScan ctx steps idx w = .ok (rs, w2) → rs.length = steps.length := by
  intro steps
  induction steps with
  | nil =>
    intro idx w rs w2 h
    obtain ⟨hrs, _⟩ := ok_pair_elim h
    rw [hrs]
    rfl
  | cons s rest ih =>
    intro idx w rs w2 h
    cases s with
    | obj comp =>
      rcases hx : execute_with_retry comp ctx
          (stepLabel comp ("compensate-" ++ toString idx)) w with e | rw0
      · rw [compScan_cons_err ctx comp rest idx w e hx] at h
        exact Except.noConfusion h
      · obtain ⟨r0, w0⟩ := rw0
        rw [compScan_cons_ok ctx comp rest idx w r0 w0 hx] at h
        rcases hy : compScan ctx rest (idx + 1) w0 with e | q
        · rw [hy, bind_error_elim] at h
          exact Except.noConfusion h
        · obtain ⟨rs2, w3⟩ := q
          rw [hy, bind_ok_elim] at h
          obtain ⟨hrs, _⟩ := ok_pair_elim h
          rw [hrs]
          simp [ih (idx + 1) w0 rs2 w3 hy]
    | null => exact Except.noConfusion h
    | bool b => exact Except.noConfusion h
    | num n => exact Except.noConfusion h
    | str s => exact Except.noConfusion h
    | arr a => exact Except.noConfusion h

theorem runCompAux_spec (ctx : Ctx) :
    ∀ (steps : List JSON) (idx : Nat) (allOk : Bool) (w : World)
      (rs : List StepResult) (w2 : World),
      compScan ctx steps idx w = .ok (rs, w2) →
      runCompAux ctx steps idx allOk w =
        .ok (allOk && rs.all (fun x => x.success), w2) := by
  intro steps
  induction steps with
  | nil =>
    intro idx allOk w rs w2 h
    obtain ⟨hrs, hw⟩ := ok_pair_elim h
    subst hrs
    subst hw
    unfold runCompAux
    simp [List.all]
  | cons s rest ih =>
    intro idx allOk w rs w2 h
    cases s with
    | obj comp =>
      rcases hx : execute_with_retry comp ctx
          (stepLabel comp ("compensate-" ++ toString idx)) w with e | rw0
      · rw [compScan_cons_err ctx comp rest idx w e hx] at h
        exact Except.noConfusion h
      · obtain ⟨r0, w0⟩ := rw0
        rw [compScan_cons_ok ctx comp rest idx w r0 w0 hx] at h
        rcases hy : compScan ctx rest (idx + 1) w0 with e | q
        · rw [hy, bind_error_elim] at h
          exact Except.noConfusion h
        · obtain ⟨rs2, w3⟩ := q
          rw [hy, bind_ok_elim] at h
          obtain ⟨hrs, hw⟩ := ok_pair_elim h
          rw [runCompAux_cons_ok ctx comp rest idx allOk w r0 w0 hx]
          rw [ih (idx + 1) (allOk && r0.success) w0 rs2 w3 hy]
          rw [hrs, hw]
          simp [List.all_cons, Bool.and_assoc]
    | null => exact Except.noConfusion h
    | bool b => exact Except.noConfusion h
    | num n => exact Except.noConfusion h
    | str s => exact Except.noConfusion h
    | arr a => exact Except.noConfusion h

theorem run_compensation_spec (ctx : Ctx) (steps : List JSON) (w : World)
    (rs : List StepResult) (w2 : World)
    (h : compScan ctx steps 1 w = .ok (rs, w2)) :
    run_compensation steps ctx w = .ok (rs.all (fun x => x.success), w2) := by
  unfold run_compensation
  rw [runCompAux_spec ctx steps 1 true w rs w2 h]
  simp

theorem planScan_cons_ok (ctx : Ctx) (step : JObj) (rest : List JSON) (idx : Nat)
    (w : World) (r0 : StepResult) (w0 : World)
    (hx : execute_with_retry step ctx
      (stepLabel step ("step-" ++ toString idx)) w = .ok (r0, w0)) :
    planScan ctx (JSON.obj step :: rest) idx w =
      if r0.success then planScan ctx rest (idx + 1) w0
      else .ok (some (idx, step, r0), w0) := by
  simp only [planScan]
  rw [hx, bind_ok_elim]

theorem planScan_cons_err (ctx : Ctx) (step : JObj) (rest : List JSON) (idx : Nat)
    (w : World) (e : String)
    (hx : execute_with_retry step ctx
      (stepLabel step ("step-" ++ toString idx)) w = .error e) :
    planScan ctx (JSON.obj step :: rest) idx w = .error e := by
  simp only [planScan]
  rw [hx, bind_error_elim]

theorem runPlanAux_cons_ok (plan : JObj) (ctx : Ctx) (step : JObj)
    (rest : List JSON) (idx : Nat) (w : World) (r0 : StepResult) (w0 : World)
    (hx : execute_with_retry step ctx
      (stepLabel step ("step-" ++ toString idx)) w = .ok (r0, w0)) :
    runPlanAux plan ctx (JSON.obj step :: rest) idx w =
      if r0.success then runPlanAux plan ctx rest (idx + 1) w0
      else
        if (compensation_steps step plan).isEmpty then
          .ok ((if r0.rc == 2 then 2 else 4 : Int), w0)
        else
          Bind.bind (run_compensation (compensation_steps step plan) ctx
              (logEv (.compStart (stepLabel step ("step-" ++ toString idx))) w0))
            (fun q => .ok ((if q.1 && (if r0.rc == 2 then (2 : Int) else 4) != 2 then 3
                            else if r0.rc == 2 then 2 else 4),
                           logEv (.compDone (stepLabel step ("step-" ++ toString idx)))
                             q.2)) := by
  simp only [runPlanAux]
  rw [hx, bind_ok_elim]

theorem runPlanAux_none (plan : JObj) (ctx : Ctx) :
    ∀ (steps : List JSON) (idx : Nat) (w w1 : World),
      planScan ctx steps idx w = .ok (none, w1) →
      runPlanAux plan ctx steps idx w = .ok (0, w1) := by
  intro steps
  induction steps with
  | nil =>
    intro idx w w1 h
    obtain ⟨_, hw⟩ := ok_pair_elim h
    rw [hw]
    rfl
  | cons s rest ih =>
    intro idx w w1 h
    cases s with
    | obj step =>
      rcases hx : execute_with_retry step ctx
          (stepLabel step ("step-" ++ toString idx)) w with e | rw0
      · rw [planScan_cons_err ctx step rest idx w e hx] at h
        exact Except.noConfusion h
      · obtain ⟨r0, w0⟩ := rw0
        rw [planScan_cons_ok ctx step rest idx w r0 w0 hx] at h
        rw [runPlanAux_cons_ok plan ctx step rest idx w r0 w0 hx]
        by_cases hs : r0.success = true
        · rw [if_pos hs] at h ⊢
          exact ih (idx + 1) w0 w1 h
        · rw [if_neg hs] at h
          obtain ⟨hnone, _⟩ := ok_pair_elim h
          exact Option.noConfusion hnone
    | null => exact Except.noConfusion h
    | bool b => exact Except.noConfusion h
    | num n => exact Except.noConfusion h
    | str s => exact Except.noConfusion h
    | arr a => exact Except.noConfusion h

theorem runPlanAux_fail (plan : JObj) (ctx : Ctx) :
    ∀ (steps : List JSON) (idx : Nat) (w : World) (j : Nat) (step : JObj)
      (r : StepResult) (w1 : World),
      planScan ctx steps idx w = .ok (some (j, step, r), w1) →
      runPlanAux plan ctx steps idx w =
        if (compensation_steps step plan).isEmpty then
          .ok ((if r.rc == 2 then 2 else 4 : Int), w1)
        else
          Bind.bind (run_compensation (compensation_steps step plan) ctx
              (logEv (.compStart (stepLabel step ("step-" ++ toString j))) w1))
            (fun q => .ok ((if q.1 && (if r.rc == 2 then (2 : Int) else 4) != 2 then 3
                            else if r.rc == 2 then 2 else 4),
                           logEv (.compDone (stepLabel step ("step-" ++ toString j)))
                             q.2)) := by
  intro steps
  induction steps with
  | nil =>
    intro idx w j step r w1 h
    obtain ⟨hnone, _⟩ := ok_pair_elim h
    exact Option.noConfusion hnone
  | cons s rest ih =>
    intro idx w j step r w1 h
    cases s with
    | obj step0 =>
      rcases hx : execute_with_retry step0 ctx
          (stepLabel step0 ("step-" ++ toString idx)) w with e | rw0
      · rw [planScan_cons_err ctx step0 rest idx w e hx] at h
        exact Except.noConfusion h
      · obtain ⟨r0, w0⟩ := rw0
        rw [planScan_cons_ok ctx step0 rest idx w r0 w0 hx] at h
        rw [runPlanAux_cons_ok plan ctx step0 rest idx w r0 w0 hx]
        by_cases hs : r0.success = true
        · rw [if_pos hs] at h ⊢
          exact ih (idx + 1) w0 j step r w1 h
        · rw [if_neg hs] at h
          rw [if_neg hs]
          obtain ⟨hsome, hw⟩ := ok_pair_elim h
          injection hsome with htriple
          injection htriple with hj hpair
          injection hpair with hstep hr
          rw [hj, hstep, hr, hw]
    | null => exact Except.noConfusion h
    | bool b => exact Except.noConfusion h
    | num n => exact Except.noConfusion h
    | str s => exact Except.noConfusion h
    | arr a => exact Except.noConfusion h

theorem planScan_fail_inv (ctx : Ctx) :
    ∀ (steps : List JSON) (idx : Nat) (w : World) (j : Nat) (step : JObj)
      (r : StepResult) (w1 : World),
      planScan ctx steps idx w = .ok (some (j, step, r), w1) →
      r.success = false ∧
      ∃ w0, execute_with_retry step ctx
        (stepLabel step ("step-" ++ toString j)) w0 = .ok (r, w1) := by
  intro steps
  induction steps with
  | nil =>
    intro idx w j step r w1 h
    obtain ⟨hnone, _⟩ := ok_pair_elim h
    exact Option.noConfusion hnone
  | cons s rest ih =>
    intro idx w j step r w1 h
    cases s with
    | obj step0 =>
      rcases hx : execute_with_retry step0 ctx
          (stepLabel step0 ("step-" ++ toString idx)) w with e | rw0
      · rw [planScan_cons_err ctx step0 rest idx w e hx] at h
        exact Except.noConfusion h
      · obtain ⟨r0, w0⟩ := rw0
        rw [planScan_cons_ok ctx step0 rest idx w r0 w0 hx] at h
        by_cases hs : r0.success = true
        · rw [if_pos hs] at h
          exact ih (idx + 1) w0 j step r w1 h
        · rw [if_neg hs] at h
          obtain ⟨hsome, hw⟩ := ok_pair_elim h
          injection hsome with htriple
          injection htriple with hj hpair
          injection hpair with hstep hr
          subst hj
          subst hstep
          subst hr
          subst hw
          refine ⟨by simpa using hs, w, hx⟩
    | null => exact Except.noConfusion h
    | bool b => exact Except.noConfusion h
    | num n => exact Except.noConfusion h
    | str s => exact Except.noConfusion h
    | arr a => exact Except.noConfusion h

theorem execute_with_retry_blocked (step : JObj) (ctx : Ctx) (label : String)
    (w : World) (hop : opOf step = .str "run_script")
    (hexec : ctx.allowExec = false) :
    execute_with_retry step ctx label w =
      .ok (⟨false, 2, "", "run_script blocked: --allow-exec not set", 1, label,
            "run_script"⟩,
           logEv (.stepDone label "run_script" 1 2 false)
             (logEv (.stepStart label "run_script" 1) w)) := by
  have hblock : perform_run_script step ctx "" 1 w = perform_run_script step ctx "" 1 w := rfl
  have hstep : execute_step step ctx label 1 w =
      .ok (⟨false, 2, "", "run_script blocked: --allow-exec not set", 1, label,
            "run_script"⟩,
           logEv (.stepDone label "run_script" 1 2 false)
             (logEv (.stepStart label "run_script" 1) w)) := by
    unfold execute_step
    rw [hop]
    simp only [pure_eq_ok]
    show Bind.bind (perform_run_script step ctx label 1
        (logEv (.stepStart label "run_script" 1) w)) _ = _
    unfold perform_run_script
    rw [hexec]
    simp only [Bool.not_false, if_true, bind_ok_elim]
    rfl
  rw [execute_with_retry_cases step ctx label w _ _ hstep]
  simp

/-- C6: a `run_script` step in a context with `allow_exec=false` fails with
code 2 without touching the world (no shell invocation, no file or log
change inside the handler), and a plan whose first failing step is such a
blocked step exits with code 2 — with no declared compensation the world
after the failing step is returned untouched, and even a declared,
fully successful compensation cannot change the blocked exit code. -/
theorem c6_exec_blocked_gate (plan : JObj) (ctx : Ctx) (w : World)
    (steps : List JSON) (j : Nat) (step : JObj) (r : StepResult) (w1 : World)
    (hexec : ctx.allowExec = false)
    (hsteps : jget plan "steps" = some (.arr steps))
    (hscan : planScan ctx steps 1 w = .ok (some (j, step, r), w1))
    (hop : opOf step = .str "run_script") :
    (∀ (stp : JObj) (label : String) (attempt : Nat) (w0 : World),
       perform_run_script stp ctx label attempt w0 =
         .ok (⟨false, 2, "", "run_script blocked: --allow-exec not set", attempt,
               label, "run_script"⟩, w0)) ∧
    r.rc = 2 ∧
    (compensation_steps step plan = [] → run_plan plan ctx w = .ok (2, w1)) ∧
    (∀ b w2, run_compensation (compensation_steps step plan) ctx
        (logEv (.compStart (stepLabel step ("step-" ++ toString j))) w1) =
          .ok (b, w2) →
      compensation_steps step plan ≠ [] →
      run_plan plan ctx w =
        .ok (2, logEv (.compDone (stepLabel step ("step-" ++ toString j))) w2)) := by
  have hblocked : ∀ (stp : JObj) (label : String) (attempt : Nat) (w0 : World),
      perform_run_script stp ctx label attempt w0 =
        .ok (⟨false, 2, "", "run_script blocked: --allow-exec not set", attempt,
              label, "run_script"⟩, w0) := by
    intro stp label attempt w0
    unfold perform_run_script
    rw [hexec]
    simp
  have hr2 : r.rc = 2 := by
    obtain ⟨_, w0, hret⟩ := planScan_fail_inv ctx steps 1 w j step r w1 hscan
    have hb := execute_with_retry_blocked step ctx
      (stepLabel step ("step-" ++ toString j)) w0 hop hexec
    rw [hret] at hb
    obtain ⟨hrr, _⟩ := ok_pair_elim hb.symm
    rw [hrr]
  have hrp : run_plan plan ctx w = runPlanAux plan ctx steps 1 w := by
    unfold run_plan
    rw [hsteps]
  refine ⟨hblocked, hr2, ?_, ?_⟩
  · intro hnone
    rw [hrp]
    rw [runPlanAux_fail plan ctx steps 1 w j step r w1 hscan]
    rw [if_pos (by simp [hnone])]
    rw [hr2]
    rfl
  · intro b w2 hcomp hne
    rw [hrp]
    rw [runPlanAux_fail plan ctx steps 1 w j step r w1 hscan]
    rw [if_neg (by simp [hne])]
    rw [hcomp, bind_ok_elim]
    rw [hr2]
    simp

/-- Witness for C6: a one-step blocked plan exits with code 2 and no
compensation runs. -/
theorem c6_exec_blocked_gate_witness :
    run_plan [("steps", JSON.arr [JSON.obj [("op", JSON.str "run_script"),
        ("script", JSON.str "x")]])]
      ⟨["box"], false, false, fun _ => false, fun _ => 0⟩ ⟨[], [], [], 0⟩ =
      .ok (2, ⟨[], [], [Ev.stepStart "step-1" "run_script" 1,
        Ev.stepDone "step-1" "run_script" 1 2 false], 0⟩) :=
  (c6_exec_blocked_gate
    [("steps", JSON.arr [JSON.obj [("op", JSON.str "run_script"),
      ("script", JSON.str "x")]])]
    ⟨["box"], false, false, fun _ => false, fun _ => 0⟩ ⟨[], [], [], 0⟩
    [JSON.obj [("op", JSON.str "run_script"), ("script", JSON.str "x")]]
    1 [("op", JSON.str "run_script"), ("script", JSON.str "x")]
    ⟨false, 2, "", "run_script blocked: --allow-exec not set", 1, "step-1",
     "run_script"⟩
    ⟨[], [], [Ev.stepStart "step-1" "run_script" 1,
      Ev.stepDone "step-1" "run_script" 1 2 false], 0⟩
    rfl rfl rfl rfl).2.2.1 rfl

/-- C7 (amended): steps run in declared order and the first failure halts
the primary sequence — `run_plan` is fully determined by the scan that stops
at the first failing step; every compensating step runs through the Retry
Controller and all of them run even past individual failures (the collected
result list has one entry per compensating step); the final exit code is the
`compensated` classification (3) if and only if all compensating steps
succeeded *and* the failing step's code was not the exec-blocked 2 — a
blocked step keeps exit code 2 even under fully successful compensation, so
the claim's unconditional "compensated iff all compensating steps succeeded"
needed that exception; the outcome is never 0 after a failure. -/
theorem c7_compensation_outcome (plan : JObj) (ctx : Ctx) (w : World)
    (steps : List JSON)
    (hsteps : jget plan "steps" = some (.arr steps)) :
    (∀ w1, planScan ctx steps 1 w = .ok (none, w1) →
       run_plan plan ctx w = .ok (0, w1)) ∧
    (∀ j step r w1,
       planScan ctx steps 1 w = .ok (some (j, step, r), w1) →
       compensation_steps step plan = [] →
       run_plan plan ctx w = .ok ((if r.rc == 2 then 2 else 4 : Int), w1) ∧
       (if r.rc == 2 then (2 : Int) else 4) ≠ 0 ∧
       (if r.rc == 2 then (2 : Int) else 4) ≠ 3) ∧
    (∀ j step r w1 rs w2,
       planScan ctx steps 1 w = .ok (some (j, step, r), w1) →
       compensation_steps step plan ≠ [] →
       compScan ctx (compensation_steps step plan) 1
         (logEv (.compStart (stepLabel step ("step-" ++ toString j))) w1) =
           .ok (rs, w2) →
       rs.length = (compensation_steps step plan).length ∧
       run_plan plan ctx w =
         .ok ((if r.rc == 2 then 2
               else if rs.all (fun x => x.success) then 3 else 4 : Int),
              logEv (.compDone (stepLabel step ("step-" ++ toString j))) w2) ∧
       ((if r.rc == 2 then (2 : Int)
         else if rs.all (fun x => x.success) then 3 else 4) = 3 ↔
          rs.all (fun x => x.success) = true ∧ r.rc ≠ 2) ∧
       (if r.rc == 2 then (2 : Int)
        else if rs.all (fun x => x.success) then 3 else 4) ≠ 0) := by
  have hrp : run_plan plan ctx w = runPlanAux plan ctx steps 1 w := by
    unfold run_plan
    rw [hsteps]
  refine ⟨?_, ?_, ?_⟩
  · intro w1 hscan
    rw [hrp]
    exact runPlanAux_none plan ctx steps 1 w w1 hscan
  · intro j step r w1 hscan hnone
    refine ⟨?_, ?_, ?_⟩
    · rw [hrp, runPlanAux_fail plan ctx steps 1 w j step r w1 hscan,
        if_pos (by simp [hnone])]
    · by_cases hrc : (r.rc == 2) = true <;> simp [hrc]
    · by_cases hrc : (r.rc == 2) = true <;> simp [hrc]
  · intro j step r w1 rs w2 hscan hne hcs
    have hlen := compScan_length ctx (compensation_steps step plan) 1
      (logEv (.compStart (stepLabel step ("step-" ++ toString j))) w1) rs w2 hcs
    have hrc := run_compensation_spec ctx (compensation_steps step plan)
      (logEv (.compStart (stepLabel step ("step-" ++ toString j))) w1) rs w2 hcs
    refine ⟨hlen, ?_, ?_, ?_⟩
    · rw [hrp, runPlanAux_fail plan ctx steps 1 w j step r w1 hscan,
        if_neg (by simp [hne]), hrc, bind_ok_elim]
      by_cases hb : (r.rc == 2) = true <;>
        by_cases hall : rs.all (fun x => x.success) = true <;>
        simp [hb, hall] <;>
        simp [beq_iff_eq.mp hb]
    · constructor
      · intro h3
        by_cases hb : (r.rc == 2) = true
        · rw [if_pos hb] at h3
          exact absurd h3 (by omega)
        · rw [if_neg hb] at h3
          refine ⟨?_, by simpa using hb⟩
          by_cases hall : rs.all (fun x => x.success) = true
          · exact hall
          · rw [if_neg hall] at h3
            exact absurd h3 (by omega)
      · rintro ⟨hall, hb⟩
        rw [if_neg (by simp [hb]), if_pos hall]
    · by_cases hb : (r.rc == 2) = true <;>
        by_cases hall : rs.all (fun x => x.success) = true <;>
        simp [hb, hall]

/-- Counterexample to C7 as stated: a `run_script` step blocked by the exec
gate (code 2) whose plan-level compensation — a read of an existing file —
fully succeeds, yet the final outcome is the blocked code 2, not the
`compensated` classification 3. The claim's "compensated iff all
compensating steps succeeded" fails in the only-if-missing direction. -/
theorem c7_counterexample :
    ∃ w1 w2,
      planScan ⟨["box"], false, false, fun _ => false, fun _ => 0⟩
        [JSON.obj [("op", JSON.str "run_script"), ("script", JSON.str "x")]] 1
        ⟨[(["box", "ok.txt"], FileContent.text "hello")], [], [], 0⟩ =
        .ok (some (1, [("op", JSON.str "run_script"), ("script", JSON.str "x")],
          ⟨false, 2, "", "run_script blocked: --allow-exec not set", 1, "step-1",
           "run_script"⟩), w1) ∧
      run_compensation
        (compensation_steps [("op", JSON.str "run_script"), ("script", JSON.str "x")]
          [("steps", JSON.arr [JSON.obj [("op", JSON.str "run_script"),
              ("script", JSON.str "x")]]),
           ("compensate", JSON.arr [JSON.obj [("op", JSON.str "read"),
              ("path", JSON.str "ok.txt")]])])
        ⟨["box"], false, false, fun _ => false, fun _ => 0⟩
        (logEv (.compStart "step-1") w1) = .ok (true, w2) ∧
      run_plan
        [("steps", JSON.arr [JSON.obj [("op", JSON.str "run_script"),
            ("script", JSON.str "x")]]),
         ("compensate", JSON.arr [JSON.obj [("op", JSON.str "read"),
            ("path", JSON.str "ok.txt")]])]
        ⟨["box"], false, false, fun _ => false, fun _ => 0⟩
        ⟨[(["box", "ok.txt"], FileContent.text "hello")], [], [], 0⟩ =
        .ok (2, logEv (.compDone "step-1") w2) ∧
      (2 : Int) ≠ 3 :=
  ⟨_, _, rfl, rfl, rfl, by decide⟩

/-- Witness for C7 (amended): a one-step plan whose read succeeds runs to
completion with exit code 0. -/
theorem c7_compensation_outcome_witness :
    run_plan [("steps", JSON.arr [JSON.obj [("op", JSON.str "read"),
        ("path", JSON.str "ok.txt")]])]
      ⟨["box"], false, false, fun _ => false, fun _ => 0⟩
      ⟨[(["box", "ok.txt"], FileContent.text "hello")], [], [], 0⟩ =
      .ok (0, ⟨[(["box", "ok.txt"], FileContent.text "hello")], [],
        [Ev.stepStart "step-1" "read" 1, Ev.stepDone "step-1" "read" 1 0 true], 0⟩) :=
  (c7_compensation_outcome
    [("steps", JSON.arr [JSON.obj [("op", JSON.str "read"),
        ("path", JSON.str "ok.txt")]])]
    ⟨["box"], false, false, fun _ => false, fun _ => 0⟩
    ⟨[(["box", "ok.txt"], FileContent.text "hello")], [], [], 0⟩
    [JSON.obj [("op", JSON.str "read"), ("path", JSON.str "ok.txt")]]
    rfl).1
    ⟨[(["box", "ok.txt"], FileContent.text "hello")], [],
      [Ev.stepStart "step-1" "read" 1, Ev.stepDone "step-1" "read" 1 0 true], 0⟩
    rfl

/-- A failing look-back check returns the mismatch response at once,
whatever steps remain. -/
theorem mosRunAux_lookback_fail (steps : List MStep) (before e : JObj)
    (applied : List String) (mw : MWorld)
    (h : state_validate e mw.state = false) :
    mosRunAux before steps (some e) applied mw = state_mismatch_response e mw := by
  cases steps <;> simp [mosRunAux, h]

/-- Core of the mismatch analysis: if the pending look-back check (when any)
passes on entry, and the scan finds its first mismatch at index `k` with
expectation `ex`, the loop returns the mismatch response computed over the
state after applying steps `0..k`. -/
theorem mosRunAux_mismatch :
    ∀ (steps : List MStep) (before : JObj) (prev : Option JObj)
      (applied : List String) (mw : MWorld) (k : Nat) (ex : JObj),
      (∀ e, prev = some e → state_validate e mw.state = true) →
      firstMismatch mw.state steps = some (k, ex) →
      mosRunAux before steps prev applied mw =
        state_mismatch_response ex
          { mw with state := applyAll (steps.take (k + 1)) mw.state } := by
  intro steps
  induction steps with
  | nil =>
    intro before prev applied mw k ex _ hfm
    exact Option.noConfusion hfm
  | cons st rest ih =>
    intro before prev applied mw k ex hprev hfm
    have hstep : mosRunAux before (st :: rest) prev applied mw =
        mosRunAux before rest (some st.expected_state)
          (applied ++ [st.step_label]) { mw with state := apply_step mw.state st } := by
      cases prev with
      | none => rfl
      | some e => simp [mosRunAux, hprev e rfl]
    rw [hstep]
    simp only [firstMismatch] at hfm
    by_cases hv : state_validate st.expected_state (apply_step mw.state st) = true
    · rw [if_pos hv] at hfm
      generalize hg : firstMismatch (apply_step mw.state st) rest = o at hfm
      cases o with
      | none => exact Option.noConfusion hfm
      | some p =>
        obtain ⟨k', ex'⟩ := p
        rw [Option.map_some', Option.some.injEq, Prod.mk.injEq] at hfm
        obtain ⟨hk, hex⟩ := hfm
        subst hex
        subst hk
        exact ih before (some st.expected_state) (applied ++ [st.step_label])
          { mw with state := apply_step mw.state st } k' ex'
          (fun e he => by injection he with h1; rw [← h1]; exact hv) hg
    · rw [if_neg hv] at hfm
      rw [Option.some.injEq, Prod.mk.injEq] at hfm
      obtain ⟨hk, hex⟩ := hfm
      subst hex
      subst hk
      simp only [Bool.not_eq_true] at hv
      exact mosRunAux_lookback_fail rest before st.expected_state
        (applied ++ [st.step_label]) { mw with state := apply_step mw.state st } hv

/-- `run` on a plan whose scan finds a first mismatch: the structured
STATE_MISMATCH result carries the mismatched expectation and the partial
state, and the returned world is the caller's world, fully restored. -/
theorem mos_run_mismatch (steps : List MStep) (mw : MWorld) (k : Nat) (ex : JObj)
    (hfm : firstMismatch mw.state steps = some (k, ex)) :
    mos_run steps mw =
      (⟨false, some "STATE_MISMATCH", some ex,
        some (applyAll (steps.take (k + 1)) mw.state), none, [], []⟩, mw) := by
  obtain ⟨s, hist⟩ := mw
  have h := mosRunAux_mismatch steps s none [] ⟨s, s :: hist⟩ k ex
    (fun _ he => Option.noConfusion he) hfm
  rw [show mos_run steps ⟨s, hist⟩ = mosRunAux s steps none [] ⟨s, s :: hist⟩ from rfl, h]
  rfl

/-- The index returned by `firstMismatch` points at a real step whose
declared expectation is the returned one, and that expectation indeed fails
against the document right after that step applies. -/
theorem firstMismatch_get :
    ∀ (steps : List MStep) (s : JObj) (k : Nat) (ex : JObj),
      firstMismatch s steps = some (k, ex) →
      ∃ st, steps.get? k = some st ∧ st.expected_state = ex ∧
        state_validate ex (applyAll (steps.take (k + 1)) s) = false := by
  intro steps
  induction steps with
  | nil => intro s k ex hfm; exact Option.noConfusion hfm
  | cons st rest ih =>
    intro s k ex hfm
    simp only [firstMismatch] at hfm
    by_cases hv : state_validate st.expected_state (apply_step s st) = true
    · rw [if_pos hv] at hfm
      generalize hg : firstMismatch (apply_step s st) rest = o at hfm
      cases o with
      | none => exact Option.noConfusion hfm
      | some p =>
        obtain ⟨k', ex'⟩ := p
        rw [Option.map_some', Option.some.injEq, Prod.mk.injEq] at hfm
        obtain ⟨hk, hex⟩ := hfm
        subst hex
        subst hk
        obtain ⟨st2, h1, h2, h3⟩ := ih (apply_step s st) k' ex' hg
        exact ⟨st2, h1, h2, h3⟩
    · rw [if_neg hv] at hfm
      rw [Option.some.injEq, Prod.mk.injEq] at hfm
      obtain ⟨hk, hex⟩ := hfm
      subst hex
      subst hk
      simp only [Bool.not_eq_true] at hv
      exact ⟨st, rfl, rfl, hv⟩

theorem applyAll_append (a b : List MStep) (s : JObj) :
    applyAll (a ++ b) s = applyAll b (applyAll a s) := by
  simp [applyAll, List.foldl_append]

/-- A mismatch-free prefix shifts `firstMismatch` over an appended suffix. -/
theorem firstMismatch_append_none :
    ∀ (init : List MStep) (s : JObj), firstMismatch s init = none →
      ∀ rest, firstMismatch s (init ++ rest) =
        (firstMismatch (applyAll init s) rest).map
          (fun p => (p.1 + init.length, p.2)) := by
  intro init
  induction init with
  | nil =>
    intro s _ rest
    simp only [List.nil_append]
    rw [show applyAll [] s = s from rfl]
    cases firstMismatch s rest with
    | none => rfl
    | some p =>
      obtain ⟨a, b⟩ := p
      simp
  | cons st0 init' ih =>
    intro s h rest
    by_cases hv : state_validate st0.expected_state (apply_step s st0) = true
    · have h' : firstMismatch (apply_step s st0) init' = none := by
        simp only [firstMismatch, hv, if_true] at h
        exact Option.map_eq_none'.mp h
      simp only [List.cons_append, firstMismatch, hv, if_true, List.append_eq]
      rw [ih (apply_step s st0) h' rest]
      rw [show applyAll (st0 :: init') s = applyAll init' (apply_step s st0) from rfl]
      generalize firstMismatch (applyAll init' (apply_step s st0)) rest = o
      cases o with
      | none => rfl
      | some p =>
        obtain ⟨a, b⟩ := p
        simp [Nat.add_assoc]
    · exfalso
      simp only [firstMismatch] at h
      rw [if_neg hv] at h
      exact Option.noConfusion h

/-- C2: in the Simulated-State Engine, when some step's declared expectation
is the first to fail shallow verification (at index `k`, expectation `ex`),
`run` returns `applied = false` with reason `STATE_MISMATCH`, an `expected`
field equal to step `k`'s declared expectation exactly, and the returned
world — live document and checkpoint stack — equals the world from before
the run: the checkpoint pushed at run start is restored and no partial
mutation survives. The well-formedness hypotheses restrict to documents and
steps on which the Python `_apply_step` cannot raise. -/
theorem c2_state_mismatch_atomicity (steps : List MStep) (mw : MWorld)
    (k : Nat) (ex : JObj)
    (hwf : mosWFState mw.state = true)
    (hwfs : steps.all mosWFStep = true)
    (hfm : firstMismatch mw.state steps = some (k, ex)) :
    mos_run steps mw =
      (⟨false, some "STATE_MISMATCH", some ex,
        some (applyAll (steps.take (k + 1)) mw.state), none, [], []⟩, mw) ∧
    (mos_run steps mw).2.state = mw.state ∧
    ∃ st, steps.get? k = some st ∧ st.expected_state = ex ∧
      state_validate ex (applyAll (steps.take (k + 1)) mw.state) = false := by
  have h := mos_run_mismatch steps mw k ex hfm
  exact ⟨h, by rw [h], firstMismatch_get steps mw.state k ex hfm⟩

/-- Witness for C2: a single `append_log` step expecting a clipboard value
the document does not have triggers the mismatch, and the world is restored. -/
theorem c2_state_mismatch_atomicity_witness :
    mos_run [⟨"s1", "append_log", [("message", JSON.str "hi")],
        [("clipboard", JSON.str "nope")]⟩] ⟨[], []⟩ =
      (⟨false, some "STATE_MISMATCH", some [("clipboard", JSON.str "nope")],
        some (applyAll ([⟨"s1", "append_log", [("message", JSON.str "hi")],
            [("clipboard", JSON.str "nope")]⟩].take (0 + 1)) ([] : JObj)),
        none, [], []⟩, ⟨[], []⟩) ∧
    (mos_run [⟨"s1", "append_log", [("message", JSON.str "hi")],
        [("clipboard", JSON.str "nope")]⟩] ⟨[], []⟩).2.state = ([] : JObj) ∧
    ∃ st, [(⟨"s1", "append_log", [("message", JSON.str "hi")],
        [("clipboard", JSON.str "nope")]⟩ : MStep)].get? 0 = some st ∧
      st.expected_state = [("clipboard", JSON.str "nope")] ∧
      state_validate [("clipboard", JSON.str "nope")]
        (applyAll ([⟨"s1", "append_log", [("message", JSON.str "hi")],
            [("clipboard", JSON.str "nope")]⟩].take (0 + 1)) ([] : JObj)) = false :=
  c2_state_mismatch_atomicity
    [⟨"s1", "append_log", [("message", JSON.str "hi")],
      [("clipboard", JSON.str "nope")]⟩] ⟨[], []⟩ 0 [("clipboard", JSON.str "nope")]
    rfl rfl
    (by simp [firstMismatch, state_validate, pyEq, jgetN, jget, apply_step,
      jsetdefault, jset, winCount, jor, jtruthy, beq_iff_eq])

/-- C10: the final step's declared expectation is also verified. If every
earlier expectation passes and the last step declares a (non-empty)
expectation that fails shallow verification against the document after the
last step applies, `run` returns `applied = false` with reason
`STATE_MISMATCH` carrying that expectation, and restores the pre-run
checkpoint — exactly as for a mismatch between consecutive steps. -/
theorem c10_final_expectation_checked (init : List MStep) (st : MStep)
    (mw : MWorld)
    (hwf : mosWFState mw.state = true)
    (hwfs : (init ++ [st]).all mosWFStep = true)
    (hne : st.expected_state ≠ [])
    (hprev : firstMismatch mw.state init = none)
    (hfail : state_validate st.expected_state
      (applyAll (init ++ [st]) mw.state) = false) :
    mos_run (init ++ [st]) mw =
      (⟨false, some "STATE_MISMATCH", some st.expected_state,
        some (applyAll (init ++ [st]) mw.state), none, [], []⟩, mw) := by
  have hfm : firstMismatch mw.state (init ++ [st]) =
      some (init.length, st.expected_state) := by
    rw [firstMismatch_append_none init mw.state hprev [st]]
    have h1 : firstMismatch (applyAll init mw.state) [st] =
        some (0, st.expected_state) := by
      rw [applyAll_append] at hfail
      simp only [firstMismatch]
      rw [if_neg (by simp only [Bool.not_eq_true]; simpa [applyAll] using hfail)]
    rw [h1]
    simp
  have h := mos_run_mismatch (init ++ [st]) mw init.length st.expected_state hfm
  have htake : (init ++ [st]).take (init.length + 1) = init ++ [st] := by
    apply List.take_of_length_le
    simp
  rw [htake] at h
  exact h

/-- Witness for C10: an `append_log` step with no expectation followed by a
last `write_clipboard` step whose expectation fails; the final check fires
and the world is restored. -/
theorem c10_final_expectation_checked_witness :
    mos_run ([⟨"s1", "append_log", [("message", JSON.str "a")], []⟩] ++
        [⟨"s2", "write_clipboard", [("text", JSON.str "x")],
          [("clipboard", JSON.str "y")]⟩]) ⟨[], []⟩ =
      (⟨false, some "STATE_MISMATCH", some [("clipboard", JSON.str "y")],
        some (applyAll ([⟨"s1", "append_log", [("message", JSON.str "a")], []⟩] ++
          [⟨"s2", "write_clipboard", [("text", JSON.str "x")],
            [("clipboard", JSON.str "y")]⟩]) ([] : JObj)), none, [], []⟩,
       ⟨[], []⟩) :=
  c10_final_expectation_checked
    [⟨"s1", "append_log", [("message", JSON.str "a")], []⟩]
    ⟨"s2", "write_clipboard", [("text", JSON.str "x")],
      [("clipboard", JSON.str "y")]⟩
    ⟨[], []⟩ rfl rfl (by simp)
    (by simp [firstMismatch, state_validate])
    (by simp [state_validate, applyAll, apply_step, jsetdefault, jset, jget,
      jgetN, pyEq, jor, jtruthy, winCount, beq_iff_eq])

theorem stepListValid_mem :
    ∀ (l : List JSON), stepListValid l = true → ∀ s ∈ l, stepValid s = true := by
  intro l
  induction l with
  | nil => intro _ s hs; exact absurd hs (List.not_mem_nil s)
  | cons x rest ih =>
    intro h s hs
    simp only [stepListValid, Bool.and_eq_true] at h
    rcases List.mem_cons.mp hs with h1 | h1
    · rw [h1]; exact h.1
    · exact ih h.2 s h1

/-- C9: the Schema Validator rejects every plan with a missing or empty
`plan_id`, a missing `steps` or an empty `steps` array, an unexpected
top-level key, or a step that lacks `op`/`args`/`expect`, carries an
unexpected step-level key, or declares an `op` outside the fixed enum; and
it accepts canonical plans: a non-empty `plan_id`, a non-empty array of
valid steps, and object `metadata`. -/
theorem c9_schema_validator (fields : JObj) :
    (jget fields "plan_id" = none → validate_plan (.obj fields) = false) ∧
    (jget fields "plan_id" = some (.str "") → validate_plan (.obj fields) = false) ∧
    (jget fields "steps" = none → validate_plan (.obj fields) = false) ∧
    (jget fields "steps" = some (.arr []) → validate_plan (.obj fields) = false) ∧
    (∀ k v, (k, v) ∈ fields → k ≠ "plan_id" → k ≠ "steps" → k ≠ "metadata" →
      validate_plan (.obj fields) = false) ∧
    (∀ l sf, jget fields "steps" = some (.arr l) → JSON.obj sf ∈ l →
      (jget sf "op" = none ∨ jget sf "args" = none ∨ jget sf "expect" = none ∨
       (∃ k v, (k, v) ∈ sf ∧ stepKeys.contains k = false) ∨
       (∃ ops, jget sf "op" = some (.str ops) ∧ ops ≠ "read" ∧ ops ≠ "write" ∧
         ops ≠ "patch_json" ∧ ops ≠ "run_script")) →
      validate_plan (.obj fields) = false) ∧
    (∀ pid steps md, pid ≠ "" → steps ≠ [] → stepListValid steps = true →
      validate_plan (.obj [("plan_id", .str pid), ("steps", .arr steps),
        ("metadata", .obj md)]) = true) := by
  refine ⟨?_, ?_, ?_, ?_, ?_, ?_, ?_⟩
  · intro h; simp [validate_plan, h]
  · intro h; simp [validate_plan, h]
  · intro h; simp [validate_plan, h]
  · intro h; simp [validate_plan, h]
  · intro k v hmem hk1 hk2 hk3
    by_contra hv
    simp only [Bool.not_eq_false] at hv
    simp only [validate_plan, Bool.and_eq_true] at hv
    have hall := hv.1.1.1.2
    have := List.all_eq_true.mp hall (k, v) hmem
    simp only [decide_eq_true_eq, Bool.or_eq_true] at this
    rcases this with (h | h) | h
    · exact hk1 h
    · exact hk2 h
    · exact hk3 h
  · intro l sf hst hmem hbad
    by_contra hv
    simp only [Bool.not_eq_false] at hv
    simp only [validate_plan, Bool.and_eq_true] at hv
    have hsteps := hv.1.2
    rw [hst] at hsteps
    simp only [Bool.and_eq_true] at hsteps
    have hsv := stepListValid_mem l hsteps.2 (JSON.obj sf) hmem
    simp only [stepValid, Bool.and_eq_true] at hsv
    rcases hbad with h | h | h | ⟨k, v, hkv, hk⟩ | ⟨ops, hop, h1, h2, h3, h4⟩
    · have := hsv.1.1.1.1.1.1.1.1.1.1.1.1.1
      rw [h] at this
      exact Bool.noConfusion this
    · have := hsv.1.1.1.1.1.1.1.1.1.1.1.1.2
      rw [h] at this
      exact Bool.noConfusion this
    · have := hsv.1.1.1.1.1.1.1.1.1.1.1.2
      rw [h] at this
      exact Bool.noConfusion this
    · have hall := hsv.1.1.1.1.1.1.1.1.1.1.2
      have := List.all_eq_true.mp hall (k, v) hkv
      rw [hk] at this
      exact Bool.noConfusion this
    · have hopv := hsv.1.1.1.1.1.1.1.1.1.2
      rw [hop] at hopv
      simp only [decide_eq_true_eq, Bool.or_eq_true] at hopv
      rcases hopv with ((h | h) | h) | h
      · exact h1 h
      · exact h2 h
      · exact h3 h
      · exact h4 h
  · intro pid steps md h1 h2 h3
    cases steps with
    | nil => exact absurd rfl h2
    | cons s rest =>
      simp [validate_plan, jget, h1, h3, isObjJ]

/-- Witness for C9: a plan missing `plan_id` is rejected. -/
theorem c9_schema_validator_witness :
    validate_plan (.obj [("steps", JSON.arr [JSON.obj [("op", JSON.str "read"),
      ("args", JSON.obj []), ("expect", JSON.obj [])]]),
      ("metadata", JSON.obj [])]) = false :=
  (c9_schema_validator [("steps", JSON.arr [JSON.obj [("op", JSON.str "read"),
    ("args", JSON.obj []), ("expect", JSON.obj [])]]),
    ("metadata", JSON.obj [])]).1 rfl

theorem jget_jdel_self (l : JObj) (k : String) : jget (jdel l k) k = none := by
  induction l with
  | nil => rfl
  | cons kv rest ih =>
    obtain ⟨k', v'⟩ := kv
    by_cases hk : k' = k
    · subst hk
      have hdel : jdel ((k', v') :: rest) k' = jdel rest k' := by
        simp [jdel, List.filter]
      rw [hdel, ih]
    · have hdel : jdel ((k', v') :: rest) k = (k', v') :: jdel rest k := by
        simp [jdel, List.filter, hk]
      rw [hdel]
      simp [jget, hk, ih]

theorem op_map_idem (x : String) : op_map (op_map x) = op_map x := by
  by_cases h1 : x = "patch"
  · subst h1; rfl
  · by_cases h2 : x = "patch_json"
    · subst h2; rfl
    · by_cases h3 : x = "write"
      · subst h3; rfl
      · by_cases h4 : x = "run"
        · subst h4; rfl
        · by_cases h5 : x = "run_script"
          · subst h5; rfl
          · by_cases h6 : x = "read"
            · subst h6; rfl
            · have hx : op_map x = x := by
                unfold op_map
                rw [if_neg h1, if_neg h2, if_neg h3, if_neg h4, if_neg h5, if_neg h6]
              rw [hx, hx]

theorem op_map_ne_empty (x : String) (h : x ≠ "") : op_map x ≠ "" := by
  by_cases h1 : x = "patch"
  · subst h1; decide
  · by_cases h2 : x = "patch_json"
    · subst h2; decide
    · by_cases h3 : x = "write"
      · subst h3; decide
      · by_cases h4 : x = "run"
        · subst h4; decide
        · by_cases h5 : x = "run_script"
          · subst h5; decide
          · by_cases h6 : x = "read"
            · subst h6; decide
            · have hx : op_map x = x := by
                unfold op_map
                rw [if_neg h1, if_neg h2, if_neg h3, if_neg h4, if_neg h5, if_neg h6]
              rw [hx]
              exact h

theorem mapOpVal_idem (v : JSON) : mapOpVal (mapOpVal v) = mapOpVal v := by
  cases v <;> simp [mapOpVal, op_map_idem]

theorem mapOpVal_truthy (v : JSON) : jtruthy (mapOpVal v) = jtruthy v := by
  cases v with
  | str s =>
    by_cases hs : s = ""
    · subst hs; rfl
    · simp only [mapOpVal, jtruthy]
      exact decide_eq_decide.mpr ⟨fun _ => hs, fun _ => op_map_ne_empty s hs⟩
  | null => rfl
  | bool b => rfl
  | num n => rfl
  | arr l => rfl
  | obj l => rfl

theorem jor_of_truthy (a b : JSON) (h : jtruthy a = true) : jor a b = a := by
  simp [jor, h]

theorem jor_truthy_right (a b : JSON) (h : jtruthy b = true) :
    jtruthy (jor a b) = true := by
  unfold jor
  split_ifs with h'
  · exact h'
  · exact h

theorem renderAbs_ne_empty (comps : List String) : renderAbs comps ≠ "" := by
  intro h
  have := congrArg String.data h
  exact List.noConfusion this

theorem copyKey_src_none (src dst : JObj) (k : String) (h : jget src k = none) :
    copyKey src dst k = dst := by
  unfold copyKey
  rw [h]

theorem copyKey_jget_ne (src dst : JObj) (k q : String) (h : q ≠ k) :
    jget (copyKey src dst k) q = jget dst q := by
  unfold copyKey
  split
  · exact jget_jset_ne dst k q _ h
  · rfl

theorem copyKey_nodup (src dst : JObj) (k : String)
    (h : (dst.map Prod.fst).Nodup) : ((copyKey src dst k).map Prod.fst).Nodup := by
  unfold copyKey
  split
  · exact jset_nodup dst k _ h
  · exact h

theorem adaptArgs0_nodup (s : JObj) : ((adaptArgs0 s).map Prod.fst).Nodup := by
  simp only [adaptArgs0]
  apply copyKey_nodup
  apply copyKey_nodup
  apply copyKey_nodup
  split
  · rename_i a _
    exact jupdate_nodup a [] List.nodup_nil
  · exact List.nodup_nil

theorem pathParts_goodComp (s : String) : ∀ c ∈ pathParts s, goodComp c = true := by
  intro c hc
  simp only [pathParts, List.mem_filter] at hc
  obtain ⟨hmem, hpred⟩ := hc
  rcases List.mem_map.mp hmem with ⟨g, hg, rfl⟩
  have hslash := splitSlashAux_noslash s.data [] (by simp) g hg
  have h2 : (String.mk g).data.contains '/' = false := by
    cases hcon : (String.mk g).data.contains '/' with
    | false => rfl
    | true => exact absurd (List.mem_of_elem_eq_true hcon) hslash
  unfold goodComp
  rw [h2, hpred]
  rfl

theorem goodComp_slashFree (c : String) (h : goodComp c = true) :
    (!(c.data.contains '/')) = true := by
  unfold goodComp at h
  rw [Bool.and_eq_true] at h
  exact h.2

theorem normComps_goodComp (l : List String)
    (h : ∀ c ∈ l, (!(c.data.contains '/')) = true) :
    ∀ c ∈ normComps l, goodComp c = true := by
  intro c hc
  have h1 := normComps_noSpecial l c hc
  have h2 := h c (normComps_mem l c hc)
  unfold goodComp
  rw [h2, Bool.and_true, Bool.and_eq_true]
  exact ⟨by simpa using h1.1, by simpa using h1.2.1⟩

theorem stripSandbox_sub (l : List String) (c : String)
    (h : c ∈ (match l with | "sandbox" :: rest => rest | _ => l)) : c ∈ l := by
  split at h
  · exact List.mem_cons_of_mem _ h
  · exact h

theorem normalize_target_path_goodComp (raw : String) (sb : List String)
    (hsb : sandboxOK sb = true) :
    ∀ c ∈ normalize_target_path raw sb, goodComp c = true := by
  intro c hc
  simp only [normalize_target_path] at hc
  split at hc
  · exact normComps_goodComp _
      (fun c' hc' => goodComp_slashFree c' (pathParts_goodComp raw c' hc')) c hc
  · refine normComps_goodComp _ ?_ c hc
    intro c' hc'
    rcases List.mem_append.mp hc' with h' | h'
    · simp only [sandboxOK] at hsb
      exact List.all_eq_true.mp hsb c' h'
    · exact goodComp_slashFree c'
        (pathParts_goodComp raw c' (stripSandbox_sub (pathParts raw) c' h'))

theorem normalize_target_path_noSpecial (raw : String) (sb : List String) :
    ∀ c ∈ normalize_target_path raw sb, c ≠ "" ∧ c ≠ "." ∧ c ≠ ".." := by
  intro c hc
  simp only [normalize_target_path] at hc
  split at hc
  · exact normComps_noSpecial _ c hc
  · exact normComps_noSpecial _ c hc

theorem normalize_target_path_idem (raw : String) (sb : List String)
    (hsb : sandboxOK sb = true) :
    normalize_target_path (renderAbs (normalize_target_path raw sb)) sb =
      normalize_target_path raw sb := by
  have hns := normalize_target_path_noSpecial raw sb
  have hgood := normalize_target_path_goodComp raw sb hsb
  generalize normalize_target_path raw sb = N at hns hgood ⊢
  unfold normalize_target_path
  rw [if_pos (isAbsPath_renderAbs N), pathParts_renderAbs N hgood]
  have := normCompsAux_of_noSpecial N [] hns
  simpa [normComps] using this

/-- `adapt_step` on a step already of the normalized shape is the identity:
the op name is stable under `op_map`, the argument dict is unchanged (the
anchored `path` re-normalizes to itself), the synthetic id is kept, and the
`expect`/`description` parts are reproduced. -/
theorem adapt_step_normalized (idv opv : JSON) (argsF : JObj) (sb : List String)
    (inj : Bool) (g2 : String) (eop dop : Option JSON)
    (hid : jtruthy idv = true)
    (hopfix : mapOpVal opv = opv)
    (hopt : jtruthy opv = true ∨ opv = JSON.null)
    (hnd : (argsF.map Prod.fst).Nodup)
    (htarget : jtruthy (targetChain argsF) = false ∨
      (∃ P, jget argsF "target" = none ∧ jget argsF "file" = none ∧
        jget argsF "path" = some (JSON.str P) ∧ P ≠ "" ∧
        renderAbs (normalize_target_path P sb) = P))
    (hnn : ∀ e, eop = some e → e ≠ JSON.null)
    (hdt : ∀ d, dop = some d → jtruthy d = true)
    (heop : eop = none → inj = false) :
    adapt_step (("id", idv) :: ("op", opv) :: ("args", JSON.obj argsF) ::
      (expectPart eop ++ descPart dop)) sb inj g2 =
    ("id", idv) :: ("op", opv) :: ("args", JSON.obj argsF) ::
      (expectPart eop ++ descPart dop) := by
  have h0 : jupdate [] argsF = argsF := jupdate_nil_id argsF hnd
  have hjop : jor opv JSON.null = opv := by
    rcases hopt with h | h
    · exact jor_of_truthy _ _ h
    · subst h; rfl
  have hja : jor idv JSON.null = idv := jor_of_truthy _ _ hid
  have hjb : jor idv (JSON.str ("step-" ++ g2)) = idv := jor_of_truthy _ _ hid
  have hnull : jtruthy JSON.null = false := rfl
  rcases htarget with hF | ⟨P, ht, hf, hp, hPne, hren⟩
  · rcases eop with _ | e
    · have hinj := heop rfl
      subst hinj
      rcases dop with _ | d
      · simp [adapt_step, adaptArgs0, expectPart, descPart, jgetN, jget, copyKey_src_none, h0, hjop,
          hopfix, hja, hjb, hF, hnull]
      · have hd := hdt d rfl
        simp [adapt_step, adaptArgs0, expectPart, descPart, jgetN, jget, copyKey_src_none, h0, hjop,
          hopfix, hja, hjb, hF, hd, hnull]
    · have hne := hnn e rfl
      rcases dop with _ | d
      · cases e <;> first
          | exact absurd rfl hne
          | simp [adapt_step, adaptArgs0, expectPart, descPart, jgetN, jget, copyKey_src_none, h0,
              hjop, hopfix, hja, hjb, hF, hnull]
      · have hd := hdt d rfl
        cases e <;> first
          | exact absurd rfl hne
          | simp [adapt_step, adaptArgs0, expectPart, descPart, jgetN, jget, copyKey_src_none, h0,
              hjop, hopfix, hja, hjb, hF, hd, hnull]
  · have htc : targetChain argsF = JSON.str P := by
      simp only [targetChain, jgetN, ht, hp, Option.getD_some, Option.getD_none]
      have h1 : jor JSON.null (JSON.str P) = JSON.str P := rfl
      rw [h1, jor_of_truthy _ _ (by simp [jtruthy, hPne])]
    have hPt : jtruthy (JSON.str P) = true := by simp [jtruthy, hPne]
    have hjset : jset argsF "path" (JSON.str P) = argsF := jset_of_jget _ _ _ hp
    have hdel1 : jdel argsF "target" = argsF := jdel_of_jget_none _ _ ht
    have hdel2 : jdel argsF "file" = argsF := jdel_of_jget_none _ _ hf
    rcases eop with _ | e
    · have hinj := heop rfl
      subst hinj
      rcases dop with _ | d
      · simp [adapt_step, adaptArgs0, expectPart, descPart, jgetN, jget, copyKey_src_none, h0, hjop,
          hopfix, hja, hjb, htc, hren, hjset, hdel1, hdel2, hPne, hPt, hnull]
      · have hd := hdt d rfl
        simp [adapt_step, adaptArgs0, expectPart, descPart, jgetN, jget, copyKey_src_none, h0, hjop,
          hopfix, hja, hjb, htc, hren, hjset, hdel1, hdel2, hPne, hPt, hd, hnull]
    · have hne := hnn e rfl
      rcases dop with _ | d
      · cases e <;> first
          | exact absurd rfl hne
          | simp [adapt_step, adaptArgs0, expectPart, descPart, jgetN, jget, copyKey_src_none, h0,
              hjop, hopfix, hja, hjb, htc, hren, hjset, hdel1, hdel2, hPne, hPt,
              hnull]
      · have hd := hdt d rfl
        cases e <;> first
          | exact absurd rfl hne
          | simp [adapt_step, adaptArgs0, expectPart, descPart, jgetN, jget, copyKey_src_none, h0,
              hjop, hopfix, hja, hjb, htc, hren, hjset, hdel1, hdel2, hPne, hPt,
              hd, hnull]

theorem assemble_eq (b1 b2 b3 : String × JSON) (expect : Option JSON) (dsc : JSON) :
    (if jtruthy dsc then
       (match expect with
        | some e => [b1, b2, b3] ++ [("expect", e)]
        | none => [b1, b2, b3]) ++ [("description", dsc)]
     else (match expect with
        | some e => [b1, b2, b3] ++ [("expect", e)]
        | none => [b1, b2, b3])) =
    b1 :: b2 :: b3 ::
      (expectPart expect ++
       descPart (if jtruthy dsc then some dsc else none)) := by
  cases expect <;> by_cases h : jtruthy dsc = true <;>
    simp [h, expectPart, descPart]

/-- `adapt_step` output decomposed: the normalized shape, with the
properties the second pass relies on. -/
theorem adapt_step_shape (s : JObj) (sb : List String) (inj : Bool) (g : String)
    (hok : stepOK s = true) (hsb : sandboxOK sb = true) :
    ∃ idv opv argsF eop dop,
      adapt_step s sb inj g =
        ("id", idv) :: ("op", opv) :: ("args", JSON.obj argsF) ::
          (expectPart eop ++ descPart dop) ∧
      jtruthy idv = true ∧
      mapOpVal opv = opv ∧
      (jtruthy opv = true ∨ opv = JSON.null) ∧
      ((argsF.map Prod.fst).Nodup) ∧
      (jtruthy (targetChain argsF) = false ∨
        (∃ P, jget argsF "target" = none ∧ jget argsF "file" = none ∧
          jget argsF "path" = some (JSON.str P) ∧ P ≠ "" ∧
          renderAbs (normalize_target_path P sb) = P)) ∧
      (∀ e, eop = some e → e ≠ JSON.null) ∧
      (∀ d, dop = some d → jtruthy d = true) ∧
      (eop = none → inj = false) := by
  simp only [stepOK, Bool.and_eq_true, Bool.or_eq_true] at hok
  have hfresh : ¬ ("step-" ++ g) = "" := by
    intro h
    have h2 := congrArg String.length h
    rw [String.length_append] at h2
    have h3 : ("step-" : String).length = 5 := rfl
    have h4 : ("" : String).length = 0 := rfl
    rw [h3, h4] at h2
    omega
  refine ⟨jor (jor (jor (jgetN s "id") (jgetN s "label")) (jgetN s "name"))
      (JSON.str ("step-" ++ g)),
    mapOpVal (jor (jgetN s "op") (jgetN s "action")),
    copyKey s (copyKey s
      (if jtruthy (targetChain (adaptArgs0 s)) then
         match targetChain (adaptArgs0 s) with
         | JSON.str t =>
           jdel (jdel (jset (adaptArgs0 s) "path"
             (JSON.str (renderAbs (normalize_target_path t sb)))) "target") "file"
         | _ => adaptArgs0 s
       else adaptArgs0 s) "patch") "content",
    (match jget s "expect" with
     | some JSON.null =>
       if inj then some (JSON.obj [("status", JSON.str "ok")]) else none
     | some v => some v
     | none => if inj then some (JSON.obj [("status", JSON.str "ok")]) else none),
    (if jtruthy (jgetN s "description") then some (jgetN s "description") else none),
    ?heq, ?hid, ?hfix, ?hopt, ?hnd, ?htgt, ?hnn, ?hdt, ?heop⟩
  case heq =>
    simp only [adapt_step]
    exact assemble_eq _ _ _ _ _
  case hid =>
    exact jor_truthy_right _ _ (by simp [jtruthy, hfresh])
  case hfix =>
    exact mapOpVal_idem _
  case hopt =>
    rcases hok.2 with h | h
    · left
      rw [mapOpVal_truthy]
      exact h
    · right
      rcases hu : jor (jgetN s "op") (jgetN s "action") with _ | b | n | st | l | l <;>
        rw [hu] at h
      · rfl
      · exact Bool.noConfusion h
      · exact Bool.noConfusion h
      · exact Bool.noConfusion h
      · exact Bool.noConfusion h
      · exact Bool.noConfusion h
  case hnd =>
    apply copyKey_nodup
    apply copyKey_nodup
    split
    · split <;> first
        | exact jdel_nodup _ _ (jdel_nodup _ _ (jset_nodup _ _ _ (adaptArgs0_nodup s)))
        | exact adaptArgs0_nodup s
    · exact adaptArgs0_nodup s
  case hnn =>
    intro e he
    rcases hj : jget s "expect" with _ | v
    · rw [hj] at he
      cases inj with
      | true =>
        have he2 : some (JSON.obj [("status", JSON.str "ok")]) = some e := he
        cases he2
        exact fun h => JSON.noConfusion h
      | false => exact Option.noConfusion (he : (none : Option JSON) = some e)
    · cases v with
      | null =>
        rw [hj] at he
        cases inj with
        | true =>
          have he2 : some (JSON.obj [("status", JSON.str "ok")]) = some e := he
          cases he2
          exact fun h => JSON.noConfusion h
        | false => exact Option.noConfusion (he : (none : Option JSON) = some e)
      | bool b =>
        rw [hj] at he
        have he2 : some (JSON.bool b) = some e := he
        cases he2
        exact fun h => JSON.noConfusion h
      | num n =>
        rw [hj] at he
        have he2 : some (JSON.num n) = some e := he
        cases he2
        exact fun h => JSON.noConfusion h
      | str st =>
        rw [hj] at he
        have he2 : some (JSON.str st) = some e := he
        cases he2
        exact fun h => JSON.noConfusion h
      | arr l =>
        rw [hj] at he
        have he2 : some (JSON.arr l) = some e := he
        cases he2
        exact fun h => JSON.noConfusion h
      | obj l =>
        rw [hj] at he
        have he2 : some (JSON.obj l) = some e := he
        cases he2
        exact fun h => JSON.noConfusion h
  case hdt =>
    intro d hd
    split at hd
    · rename_i h
      cases hd
      exact h
    · exact Option.noConfusion hd
  case heop =>
    cases inj with
    | false => intro _; rfl
    | true =>
      intro he
      rcases hj : jget s "expect" with _ | v
      · rw [hj] at he
        exact Option.noConfusion
          (he : some (JSON.obj [("status", JSON.str "ok")]) = none)
      · cases v with
        | null =>
          rw [hj] at he
          exact Option.noConfusion
            (he : some (JSON.obj [("status", JSON.str "ok")]) = none)
        | bool b =>
          rw [hj] at he
          exact Option.noConfusion (he : some (JSON.bool b) = none)
        | num n =>
          rw [hj] at he
          exact Option.noConfusion (he : some (JSON.num n) = none)
        | str st =>
          rw [hj] at he
          exact Option.noConfusion (he : some (JSON.str st) = none)
        | arr l =>
          rw [hj] at he
          exact Option.noConfusion (he : some (JSON.arr l) = none)
        | obj l =>
          rw [hj] at he
          exact Option.noConfusion (he : some (JSON.obj l) = none)
  case htgt =>
    by_cases htr : jtruthy (targetChain (adaptArgs0 s)) = true
    · have hstr : isStrJ (targetChain (adaptArgs0 s)) = true := by
        rcases hok.1 with h | h
        · rw [htr] at h
          exact Bool.noConfusion h
        · exact h
      rcases hts : targetChain (adaptArgs0 s) with _ | b | n | tS | l | l <;>
        rw [hts] at hstr htr
      · exact Bool.noConfusion htr
      · exact Bool.noConfusion hstr
      · exact Bool.noConfusion hstr
      · right
        refine ⟨renderAbs (normalize_target_path tS sb), ?_, ?_, ?_,
          renderAbs_ne_empty _, ?_⟩
        · rw [if_pos htr]
          rw [copyKey_jget_ne s _ "content" "target" (by decide),
            copyKey_jget_ne s _ "patch" "target" (by decide),
            jget_jdel_ne _ "file" "target" (by decide), jget_jdel_self]
        · rw [if_pos htr]
          rw [copyKey_jget_ne s _ "content" "file" (by decide),
            copyKey_jget_ne s _ "patch" "file" (by decide), jget_jdel_self]
        · rw [if_pos htr]
          rw [copyKey_jget_ne s _ "content" "path" (by decide),
            copyKey_jget_ne s _ "patch" "path" (by decide),
            jget_jdel_ne _ "file" "path" (by decide),
            jget_jdel_ne _ "target" "path" (by decide), jget_jset_self]
        · rw [normalize_target_path_idem tS sb hsb]
      · exact Bool.noConfusion hstr
      · exact Bool.noConfusion hstr
    · left
      simp only [Bool.not_eq_true] at htr
      rw [if_neg (by simp [htr])]
      have hchain : targetChain (copyKey s (copyKey s (adaptArgs0 s) "patch")
          "content") = targetChain (adaptArgs0 s) := by
        simp only [targetChain, jgetN]
        rw [copyKey_jget_ne s _ "content" "target" (by decide),
          copyKey_jget_ne s _ "patch" "target" (by decide),
          copyKey_jget_ne s _ "content" "path" (by decide),
          copyKey_jget_ne s _ "patch" "path" (by decide),
          copyKey_jget_ne s _ "content" "file" (by decide),
          copyKey_jget_ne s _ "patch" "file" (by decide)]
      rw [hchain]
      exact htr

/-- `adapt_step` is idempotent on steps whose inspected target value is a
string when truthy and whose operation chain is truthy or absent, over a
sandbox root with slash-free components. -/
theorem adapt_step_idem (s : JObj) (sb : List String) (inj : Bool)
    (g1 g2 : String) (hok : stepOK s = true) (hsb : sandboxOK sb = true) :
    adapt_step (adapt_step s sb inj g1) sb inj g2 = adapt_step s sb inj g1 := by
  obtain ⟨idv, opv, argsF, eop, dop, heq, hid, hfix, hopt, hnd, htgt, hnn, hdt,
    heop⟩ := adapt_step_shape s sb inj g1 hok hsb
  rw [heq]
  exact adapt_step_normalized idv opv argsF sb inj g2 eop dop hid hfix hopt hnd
    htgt hnn hdt heop

theorem jget_parts_none (eop dop : Option JSON) (k : String)
    (h1 : k ≠ "expect") (h2 : k ≠ "description") :
    jget (expectPart eop ++ descPart dop) k = none := by
  have h1' : ¬ ("expect" = k) := fun e => h1 e.symm
  have h2' : ¬ ("description" = k) := fun e => h2 e.symm
  rcases eop with _ | e <;> rcases dop with _ | d <;>
    simp [expectPart, descPart, jget, h1', h2']

/-- A normalized step carries no nested `steps` key and is non-empty. -/
theorem adapt_step_flat (s : JObj) (sb : List String) (inj : Bool) (g : String)
    (hok : stepOK s = true) (hsb : sandboxOK sb = true) :
    jget (adapt_step s sb inj g) "steps" = none ∧
      (adapt_step s sb inj g).isEmpty = false := by
  obtain ⟨idv, opv, argsF, eop, dop, heq, _, _, _, _, _, _, _, _⟩ :=
    adapt_step_shape s sb inj g hok hsb
  rw [heq]
  constructor
  · have h := jget_parts_none eop dop "steps" (by decide) (by decide)
    simp [jget, h]
  · rfl

/-- `flatten_steps` on a list of non-empty dicts without nested `steps` is
the identity (as dicts). -/
theorem flattenList_objs :
    ∀ (l : List JObj),
      (∀ f ∈ l, jget f "steps" = none ∧ f.isEmpty = false) →
      flattenList (l.map JSON.obj) = l := by
  intro l
  induction l with
  | nil => intro _; simp [flattenList]
  | cons f rest ih =>
    intro h
    have hf := h f (by simp)
    simp only [List.map_cons, flattenList]
    rw [jdel_of_jget_none f "steps" hf.1, hf.2]
    rw [hf.1]
    rw [ih (fun f' hf' => h f' (by simp [hf']))]
    simp

/-- C8: normalizing a plan twice yields the same result as normalizing it
once — the second normalization preserves the synthetic identifiers the
first one assigned (it never draws from the fresh supply again), as well as
canonical op names, the anchored `args.path`, expectations and metadata.
Well-formedness: the sandbox root's components are slash-free, and every
flattened step's inspected target value is a string when truthy with a
truthy-or-absent operation name. -/
theorem c8_normalize_plan_idempotent (plan : JObj) (sb : List String)
    (inj : Bool) (g1 g2 : String) (gs1 gs2 : Nat → String)
    (hsb : sandboxOK sb = true)
    (hsteps : ∀ f ∈ flatten_steps (jgetN plan "steps"), stepOK f = true) :
    normalize_plan (normalize_plan plan sb inj g1 gs1) sb inj g2 gs2 =
      normalize_plan plan sb inj g1 gs1 := by
  have hfg1 : ¬ ("plan-" ++ g1) = "" := by
    intro h
    have h2 := congrArg String.length h
    rw [String.length_append] at h2
    have h3 : ("plan-" : String).length = 5 := rfl
    have h4 : ("" : String).length = 0 := rfl
    rw [h3, h4] at h2
    omega
  set pid := jor (jgetN plan "plan_id") (JSON.str ("plan-" ++ g1)) with hpid
  set md := (match jget plan "metadata" with
             | some (JSON.obj m) => JSON.obj m
             | _ => JSON.obj []) with hmd
  set L0 := flatten_steps (jgetN plan "steps") with hL0
  set L1 := L0.enum.map (fun p => adapt_step p.2 sb inj (gs1 p.1)) with hL1
  have hL1mem : ∀ f ∈ L1, jget f "steps" = none ∧ f.isEmpty = false := by
    intro f hf
    rw [hL1] at hf
    rcases List.mem_map.mp hf with ⟨q, hq, hfq⟩
    have hq2 : q.2 ∈ L0 := by
      have := List.mem_map_of_mem Prod.snd hq
      rwa [List.enum_map_snd] at this
    rw [← hfq]
    exact adapt_step_flat q.2 sb inj (gs1 q.1) (hsteps q.2 (hL0 ▸ hq2)) hsb
  have hP1 : normalize_plan plan sb inj g1 gs1 =
      [("plan_id", pid), ("metadata", md), ("steps", JSON.arr (L1.map JSON.obj))] := by
    rw [hpid, hmd, hL1, hL0]
    simp only [normalize_plan, List.map_map]
    rfl
  rw [hP1]
  simp only [normalize_plan]
  have e1 : jgetN [("plan_id", pid), ("metadata", md),
      ("steps", JSON.arr (L1.map JSON.obj))] "plan_id" = pid := rfl
  have e2 : jget [("plan_id", pid), ("metadata", md),
      ("steps", JSON.arr (L1.map JSON.obj))] "metadata" = some md := rfl
  have e3 : jgetN [("plan_id", pid), ("metadata", md),
      ("steps", JSON.arr (L1.map JSON.obj))] "steps" =
      JSON.arr (L1.map JSON.obj) := rfl
  rw [e1, e2, e3]
  have c1 : jor pid (JSON.str ("plan-" ++ g2)) = pid := by
    apply jor_of_truthy
    rw [hpid]
    exact jor_truthy_right _ _ (by simp [jtruthy, hfg1])
  have c2 : (match some md with
             | some (JSON.obj m) => JSON.obj m
             | _ => JSON.obj []) = md := by
    rw [hmd]
    rcases hjm : jget plan "metadata" with _ | v
    · rfl
    · cases v <;> rfl
  have hfl : flatten_steps (JSON.arr (L1.map JSON.obj)) = L1 := by
    simp only [flatten_steps]
    exact flattenList_objs L1 hL1mem
  have c3 : (flatten_steps (JSON.arr (L1.map JSON.obj))).enum.map
      (fun p => JSON.obj (adapt_step p.2 sb inj (gs2 p.1))) = L1.map JSON.obj := by
    rw [hfl]
    have hpt : ∀ p ∈ L1.enum,
        JSON.obj (adapt_step p.2 sb inj (gs2 p.1)) = JSON.obj p.2 := by
      intro p hp
      have hmem : p.2 ∈ L1 := by
        have := List.mem_map_of_mem Prod.snd hp
        rwa [List.enum_map_snd] at this
      rw [hL1] at hmem
      rcases List.mem_map.mp hmem with ⟨q, hq, hfq⟩
      have hq2 : q.2 ∈ L0 := by
        have := List.mem_map_of_mem Prod.snd hq
        rwa [List.enum_map_snd] at this
      rw [← hfq]
      rw [adapt_step_idem q.2 sb inj (gs1 q.1) (gs2 p.1)
        (hsteps q.2 (hL0 ▸ hq2)) hsb]
    rw [List.map_congr_left hpt]
    rw [show L1.enum.map (fun p => JSON.obj p.2) =
        (L1.enum.map Prod.snd).map JSON.obj from by
      rw [List.map_map]
      rfl]
    rw [List.enum_map_snd]
  rw [c1, c2, c3]

/-- Witness for C8: a one-step plan with a relative `target` is normalized
identically by a second pass. -/
theorem c8_normalize_plan_idempotent_witness :
    normalize_plan
      (normalize_plan
        [("plan_id", JSON.str "p1"),
         ("steps", JSON.arr [JSON.obj [("op", JSON.str "write"),
           ("target", JSON.str "notes/a.txt"), ("content", JSON.str "hi")]]),
         ("metadata", JSON.obj [])]
        ["srv", "box"] true "aaa" (fun _ => "x1"))
      ["srv", "box"] true "bbb" (fun _ => "x2") =
    normalize_plan
      [("plan_id", JSON.str "p1"),
       ("steps", JSON.arr [JSON.obj [("op", JSON.str "write"),
         ("target", JSON.str "notes/a.txt"), ("content", JSON.str "hi")]]),
       ("metadata", JSON.obj [])]
      ["srv", "box"] true "aaa" (fun _ => "x1") :=
  c8_normalize_plan_idempotent
    [("plan_id", JSON.str "p1"),
     ("steps", JSON.arr [JSON.obj [("op", JSON.str "write"),
       ("target", JSON.str "notes/a.txt"), ("content", JSON.str "hi")]]),
     ("metadata", JSON.obj [])]
    ["srv", "box"] true "aaa" "bbb" (fun _ => "x1") (fun _ => "x2") rfl
    (by
      intro f hf
      simp [flatten_steps, flattenList, jgetN, jget, jdel] at hf
      subst hf
      rfl)
